import Mathlib

/-!
# Square-matrix calculator (`src/main.cpp`): embedding and verified properties

The C++ program keeps two `vector<vector<long long>>` matrices and an `int N`.
The embedding below follows `src/main.cpp` function by function.

* `long long` values are mathematical integers reduced by `wrap64` after every
  arithmetic operation (two's-complement wraparound, as the specification
  prescribes for cell arithmetic).
* `int` arguments (`N`, row and column indices) are `Int`; only comparisons are
  performed on them.
* `M[i][j]` is a checked access: an index outside the vector makes the embedded
  operation return `none` (the C++ behaviour is undefined there).
* `for (int i = 0; i < N; i++)` is a monadic left fold over `List.range N.toNat`.
-/

namespace MatrixLab

/-! ## Data model -/

/-- The C++ alias `Matrix = vector<vector<long long>>` (main.cpp line 11). -/
abbrev Matrix := List (List Int)

def LLONG_MAX : Int := 9223372036854775807
def LLONG_MIN : Int := -9223372036854775808
def INT_MAX : Int := 2147483647
def INT_MIN : Int := -2147483648

/-- Reduction of a mathematical integer to the signed 64-bit value with the same
residue modulo `2^64` (two's-complement wraparound). -/
def wrap64 (x : Int) : Int := (x + 9223372036854775808) % 18446744073709551616 - 9223372036854775808

/-- Checked read of `M[i][j]`. -/
def cellAt (M : Matrix) (i j : Nat) : Option Int :=
  match M[i]? with
  | some row => row[j]?
  | none => none

/-- Checked write `M[i][j] = v`. -/
def setCell (M : Matrix) (i j : Nat) (v : Int) : Option Matrix :=
  match M[i]? with
  | some row => if j < row.length then some (M.set i (row.set j v)) else none
  | none => none

/-- The constructor call `Matrix C(N, vector<long long>(N, 0))`; a negative `N`
converts to a huge `size_t` and the allocation throws. -/
def zeroMatrix (N : Int) : Option Matrix :=
  if N < 0 then none else some (List.replicate N.toNat (List.replicate N.toNat 0))

/-! ## Operation engine (main.cpp lines 57-110) -/

/-- Embedding of `add` (main.cpp lines 57-63). -/
def add (A B : Matrix) (N : Int) : Option Matrix :=
  match zeroMatrix N with
  | none => none
  | some C0 =>
    (List.range N.toNat).foldlM (fun C i =>
      (List.range N.toNat).foldlM (fun C j =>
        match cellAt A i j, cellAt B i j with
        | some a, some b => setCell C i j (wrap64 (a + b))
        | _, _ => none) C) C0

/-- Embedding of `multiply` (main.cpp lines 66-73): loop order i, k, j with the
in-place update `C[i][j] += A[i][k] * B[k][j]`. -/
def multiply (A B : Matrix) (N : Int) : Option Matrix :=
  match zeroMatrix N with
  | none => none
  | some C0 =>
    (List.range N.toNat).foldlM (fun C i =>
      (List.range N.toNat).foldlM (fun C k =>
        (List.range N.toNat).foldlM (fun C j =>
          match cellAt A i k, cellAt B k j, cellAt C i j with
          | some a, some b, some c => setCell C i j (wrap64 (c + wrap64 (a * b)))
          | _, _, _ => none) C) C) C0

/-- Embedding of `mainDiagonalSum` (main.cpp lines 76-80). -/
def mainDiagonalSum (M : Matrix) (N : Int) : Option Int :=
  (List.range N.toNat).foldlM (fun s i =>
    match cellAt M i i with
    | some x => some (wrap64 (s + x))
    | none => none) (0 : Int)

/-- Embedding of `secondaryDiagonalSum` (main.cpp lines 83-87); the column index
is the `int` expression `N - 1 - i`. -/
def secondaryDiagonalSum (M : Matrix) (N : Int) : Option Int :=
  (List.range N.toNat).foldlM (fun s (i : Nat) =>
    let c : Int := N - 1 - (i : Int)
    if c < 0 then none
    else
      match cellAt M i c.toNat with
      | some x => some (wrap64 (s + x))
      | none => none) (0 : Int)

/-- Embedding of `swapRows` (main.cpp lines 90-95): the returned pair is the
`bool` result and the matrix after the call. -/
def swapRows (M : Matrix) (N r1 r2 : Int) : Option (Bool × Matrix) :=
  if r1 < 0 ∨ r2 < 0 ∨ r1 ≥ N ∨ r2 ≥ N then some (false, M)
  else if r1 = r2 then some (true, M)
  else
    match M[r1.toNat]?, M[r2.toNat]? with
    | some a, some b => some (true, (M.set r1.toNat b).set r2.toNat a)
    | _, _ => none

/-- Embedding of `swapCols` (main.cpp lines 98-103). -/
def swapCols (M : Matrix) (N c1 c2 : Int) : Option (Bool × Matrix) :=
  if c1 < 0 ∨ c2 < 0 ∨ c1 ≥ N ∨ c2 ≥ N then some (false, M)
  else if c1 = c2 then some (true, M)
  else
    match (List.range N.toNat).foldlM (fun M i =>
        match cellAt M i c1.toNat, cellAt M i c2.toNat with
        | some x, some y =>
          match setCell M i c1.toNat y with
          | some M1 => setCell M1 i c2.toNat x
          | none => none
        | _, _ => none) M with
    | some M1 => some (true, M1)
    | none => none

/-- Embedding of `updateCell` (main.cpp lines 106-110). -/
def updateCell (M : Matrix) (N r c : Int) (val : Int) : Option (Bool × Matrix) :=
  if r < 0 ∨ c < 0 ∨ r ≥ N ∨ c ≥ N then some (false, M)
  else
    match setCell M r.toNat c.toNat val with
    | some M1 => some (true, M1)
    | none => none

/-! ## Parser / loader (main.cpp lines 14-43)

The input file is the list of its characters (`none` when it cannot be opened).
`fin >> x` is `extractInt`: skip whitespace, read an optional sign and the longest
run of decimal digits, and store the value when it fits the target type. The
model records what the failed extraction leaves in the target, because
`loadMatrices` writes into the caller's variables:
* end of input while skipping whitespace: the target is untouched;
* no digit: `0` is stored;
* value outside the target range: the nearest bound is stored.

Lines 25-26 allocate the two `N × N` matrices. Whether the allocator can provide
them is a fact of the machine, not of the program, so it is a parameter of the
model: `alloc n` tells whether `A.assign` and `B.assign` succeed for dimension `n`.
When they do not, `std::bad_alloc` is thrown; nothing in the program catches it,
so `loadMatrices` does not return and the program terminates.
-/

/-- The `isspace` class of the "C" locale: space and the controls 9 to 13. -/
def isSpace (c : Char) : Bool := c.toNat = 32 || (9 ≤ c.toNat && c.toNat ≤ 13)

def isDigit (c : Char) : Bool := 48 ≤ c.toNat && c.toNat ≤ 57

def digitVal (c : Char) : Int := (c.toNat : Int) - 48

/-- Value of a run of decimal digits. -/
def decimal (ds : List Char) : Int := ds.foldl (fun a d => 10 * a + digitVal d) 0

/-- Outcome of one formatted extraction `stream >> x`. -/
inductive Extracted where
  | value (v : Int)
  | failed (stored : Int)
  | noInput
  deriving DecidableEq, Repr

/-- Formatted extraction of an integer of range `[lo, hi]` from the stream `s`;
returns the outcome and the rest of the stream. -/
def extractInt (lo hi : Int) (s : List Char) : Extracted × List Char :=
  match s.dropWhile isSpace with
  | [] => (Extracted.noInput, [])
  | c :: cs =>
    let neg : Bool := c = '-'
    let body : List Char := if c = '-' ∨ c = '+' then cs else c :: cs
    let ds := body.takeWhile isDigit
    let rest := body.dropWhile isDigit
    if ds = [] then (Extracted.failed 0, rest)
    else
      let v : Int := if neg then - decimal ds else decimal ds
      if v < lo then (Extracted.failed lo, rest)
      else if v > hi then (Extracted.failed hi, rest)
      else (Extracted.value v, rest)

/-- The inner loop `for (j ...) if (!(fin >> M[i][j])) return false;` over the
column indices `js` of row `i`: the flag tells whether every read succeeded. The
matrix was assigned `N × N` just before and `i, j < N`, so the write is in range. -/
def readRow (i : Nat) : List Nat → Matrix → List Char → Bool × Matrix × List Char
  | [], M, s => (true, M, s)
  | j :: js, M, s =>
    match extractInt LLONG_MIN LLONG_MAX s with
    | (Extracted.value v, s') => readRow i js (M.set i ((M[i]?.getD []).set j v)) s'
    | (Extracted.failed v, s') => (false, M.set i ((M[i]?.getD []).set j v), s')
    | (Extracted.noInput, s') => (false, M, s')

/-- The outer loop over the row indices `is` of an `n`-column matrix. -/
def readRows (n : Nat) : List Nat → Matrix → List Char → Bool × Matrix × List Char
  | [], M, s => (true, M, s)
  | i :: is, M, s =>
    match readRow i (List.range n) M s with
    | (true, M', s') => readRows n is M' s'
    | (false, M', s') => (false, M', s')

/-- Which exit of `loadMatrices` was taken: `loaded` is `return true`;
`openError`, `invalidN`, `incompleteA`, `incompleteB` are the four `return false`
exits with their messages; `allocFailed` is the exception thrown by the
allocation of lines 25-26, with which the program terminates. -/
inductive LoadStatus where
  | loaded
  | openError
  | invalidN
  | incompleteA
  | incompleteB
  | allocFailed
  deriving DecidableEq, Repr

/-- Result of `loadMatrices`: the exit taken and the caller's `A`, `B`, `N` after
the call (they are reference parameters). -/
structure LoadResult where
  status : LoadStatus
  A : Matrix
  B : Matrix
  N : Int
  deriving DecidableEq, Repr

/-- The call returned `true`. -/
def LoadResult.ok (r : LoadResult) : Bool := r.status = LoadStatus.loaded

/-- The `bool` returned by `loadMatrices`, `none` when the call does not return
because the allocation threw. -/
def LoadResult.returned (r : LoadResult) : Option Bool :=
  match r.status with
  | LoadStatus.loaded => some true
  | LoadStatus.allocFailed => none
  | _ => some false

/-- Embedding of `loadMatrices` (main.cpp lines 14-43). `alloc` is the allocator of
the machine (see above), `file` is the content of the named file, `A`, `B`, `N` are
the caller's variables before the call. At `allocFailed` the fields `A` and `B`
are of no account: the program is over. -/
def loadMatrices (alloc : Nat → Bool) (file : Option (List Char)) (A B : Matrix) (N : Int) :
    LoadResult :=
  match file with
  | none => ⟨LoadStatus.openError, A, B, N⟩
  | some s =>
    match extractInt INT_MIN INT_MAX s with
    | (Extracted.noInput, _) => ⟨LoadStatus.invalidN, A, B, N⟩
    | (Extracted.failed v, _) => ⟨LoadStatus.invalidN, A, B, v⟩
    | (Extracted.value v, s1) =>
      if v ≤ 0 then ⟨LoadStatus.invalidN, A, B, v⟩
      else if alloc v.toNat = true then
        let A0 : Matrix := List.replicate v.toNat (List.replicate v.toNat 0)
        let B0 : Matrix := List.replicate v.toNat (List.replicate v.toNat 0)
        match readRows v.toNat (List.range v.toNat) A0 s1 with
        | (false, A1, _) => ⟨LoadStatus.incompleteA, A1, B0, v⟩
        | (true, A1, s2) =>
          match readRows v.toNat (List.range v.toNat) B0 s2 with
          | (false, B1, _) => ⟨LoadStatus.incompleteB, A1, B1, v⟩
          | (true, B1, _) => ⟨LoadStatus.loaded, A1, B1, v⟩
      else ⟨LoadStatus.allocFailed, A, B, v⟩

/-! ## Specification-side vocabulary -/

/-- A matrix is `n × n`: `n` rows, each of length `n`. -/
def IsSquare (M : Matrix) (n : Nat) : Prop := M.length = n ∧ ∀ row ∈ M, row.length = n

/-- Total read of a cell, used to state results (`0` outside the matrix). -/
def cell (M : Matrix) (i j : Nat) : Int := ((M[i]?.getD [])[j]?).getD 0

instance (M : Matrix) (n : Nat) : Decidable (IsSquare M n) := by
  unfold IsSquare
  infer_instance

/-- The entry `(i, j)` of the product as the code accumulates it: starting from
`0`, for `k = 0, …, n - 1` the running value `c` becomes
`wrap64 (c + wrap64 (A[i][k] * B[k][j]))`. -/
def dotWrap (A B : Matrix) (i j n : Nat) : Int :=
  (List.range n).foldl (fun acc k => wrap64 (acc + wrap64 (cell A i k * cell B k j))) 0

/-- The whitespace-delimited tokens of a text, in order. -/
def tokens : List Char → List (List Char)
  | [] => []
  | c :: cs =>
    if isSpace c then tokens cs
    else
      match cs with
      | [] => [[c]]
      | d :: _ => if isSpace d then [c] :: tokens cs else (tokens cs).modifyHead (fun t => c :: t)

/-- The integer written by a whole token: an optional sign followed by one or
more decimal digits and nothing else. -/
def tokenInt (t : List Char) : Option Int :=
  match t with
  | [] => none
  | c :: cs =>
    let body : List Char := if c = '-' ∨ c = '+' then cs else c :: cs
    if body ≠ [] ∧ body.all isDigit then
      some (if c = '-' then - decimal body else decimal body)
    else none

/-- A machine on which two matrices of dimension `65536` or more (32 GiB each) do
not fit in memory. -/
def smallMachine (n : Nat) : Bool := decide (n < 65536)

/-- The diagonal sum as the code accumulates it, wrapping after every addition. -/
def diagWrap (M : Matrix) (col : Nat → Nat) (n : Nat) : Int :=
  (List.range n).foldl (fun s i => wrap64 (s + cell M i (col i))) 0

/-- Outcome of extracting a value `v` into a target of range `[lo, hi]`. -/
def outcome (lo hi v : Int) : Extracted :=
  if v < lo then Extracted.failed lo
  else if v > hi then Extracted.failed hi
  else Extracted.value v

/-- The text is empty or begins with a whitespace character. -/
def AtBoundary (rest : List Char) : Prop := ∀ d r, rest = d :: r → isSpace d = true

/-- The matrix after the in-range write `M[i][j] = v`. -/
def putCell (M : Matrix) (i j : Nat) (v : Int) : Matrix := M.set i ((M[i]?.getD []).set j v)

/-- The cells lying on either diagonal of an `n × n` matrix, each once: row index
equal to column index, or column index equal to `n - 1 -` row index. -/
def diagonalCells (n : Nat) : Finset (Nat × Nat) :=
  (Finset.range n ×ˢ Finset.range n).filter (fun p => p.1 = p.2 ∨ p.2 = n - 1 - p.1)

/-- Embedding of `parseInt` (main.cpp lines 113-120): the text is read through a
string stream into a `long long` and then checked against the `int` range. The
pair is the returned `bool` and the caller's `out` after the call. -/
def parseInt (s : List Char) (out : Int) : Bool × Int :=
  match extractInt LLONG_MIN LLONG_MAX s with
  | (Extracted.value tmp, _) =>
    if tmp < INT_MIN ∨ tmp > INT_MAX then (false, out) else (true, tmp)
  | (Extracted.failed _, _) => (false, out)
  | (Extracted.noInput, _) => (false, out)

/-- The signed decimal integer found at the start of the trimmed text, as the
specification words it: after the leading whitespace, an optional sign followed by
the longest run of decimal digits; `none` when no digit is found there. The value
is the mathematical integer, of any size. -/
def leadingInt (s : List Char) : Option Int :=
  match s.dropWhile isSpace with
  | [] => none
  | c :: cs =>
    let body : List Char := if c = '-' ∨ c = '+' then cs else c :: cs
    let ds := body.takeWhile isDigit
    if ds = [] then none
    else some (if c = '-' then - decimal ds else decimal ds)

/-! ## Session controller (main.cpp lines 138-270)

Only the part of `main` that touches `A`, `B`, `N` is embedded: the initial load
and the dispatch of one menu selection. Reading and parsing the input lines is
outside the model; a `Command` is a selection whose arguments were parsed, and
input that does not parse or an unknown option is `skip` (the loop continues
without touching the state). -/

/-- The variables `A`, `B`, `N` of `main` (main.cpp lines 138-139). -/
structure Session where
  A : Matrix
  B : Matrix
  N : Int
  deriving DecidableEq, Repr

/-- One menu selection with its parsed arguments; `w` selects the matrix (`1` is
`A`, `2` is `B`), and `reload` carries the content of the file at that moment
(`none` when it cannot be opened). -/
inductive Command where
  | addAB
  | multiplyAB
  | diagonalSums (w : Int)
  | swapRowsOf (w r1 r2 : Int)
  | swapColsOf (w c1 c2 : Int)
  | updateCellOf (w r c v : Int)
  | reload (file : Option (List Char))
  | skip
  deriving DecidableEq, Repr

/-- The session after the initial load (main.cpp line 140): `main` returns `1`
when the load returns false, and terminates when the allocation throws, so there
is no session then. -/
def start (alloc : Nat → Bool) (file : Option (List Char)) : Option Session :=
  let r := loadMatrices alloc file [] [] 0
  if r.ok then some ⟨r.A, r.B, r.N⟩ else none

/-- One pass of the menu loop (main.cpp lines 177-269). The result is `none` when
the selected operation performs an out-of-range access or a failing allocation.
A reload that returns stores whatever `loadMatrices` left in `A`, `B`, `N`,
whether it returned true or false: line 260 passes the session's own variables
by reference. -/
def step (alloc : Nat → Bool) (s : Session) : Command → Option Session
  | Command.addAB =>
    match add s.A s.B s.N with
    | some _ => some s
    | none => none
  | Command.multiplyAB =>
    match multiply s.A s.B s.N with
    | some _ => some s
    | none => none
  | Command.diagonalSums w =>
    if w = 1 then
      match mainDiagonalSum s.A s.N, secondaryDiagonalSum s.A s.N with
      | some _, some _ => some s
      | _, _ => none
    else if w = 2 then
      match mainDiagonalSum s.B s.N, secondaryDiagonalSum s.B s.N with
      | some _, some _ => some s
      | _, _ => none
    else some s
  | Command.swapRowsOf w r1 r2 =>
    if w = 1 then
      match swapRows s.A s.N r1 r2 with
      | some (_, A1) => some ⟨A1, s.B, s.N⟩
      | none => none
    else if w = 2 then
      match swapRows s.B s.N r1 r2 with
      | some (_, B1) => some ⟨s.A, B1, s.N⟩
      | none => none
    else some s
  | Command.swapColsOf w c1 c2 =>
    if w = 1 then
      match swapCols s.A s.N c1 c2 with
      | some (_, A1) => some ⟨A1, s.B, s.N⟩
      | none => none
    else if w = 2 then
      match swapCols s.B s.N c1 c2 with
      | some (_, B1) => some ⟨s.A, B1, s.N⟩
      | none => none
    else some s
  | Command.updateCellOf w r c v =>
    if w = 1 then
      match updateCell s.A s.N r c v with
      | some (_, A1) => some ⟨A1, s.B, s.N⟩
      | none => none
    else if w = 2 then
      match updateCell s.B s.N r c v with
      | some (_, B1) => some ⟨s.A, B1, s.N⟩
      | none => none
    else some s
  | Command.reload file =>
    let r := loadMatrices alloc file s.A s.B s.N
    if r.status = LoadStatus.allocFailed then none else some ⟨r.A, r.B, r.N⟩
  | Command.skip => some s

/-- The menu loop over a sequence of selections. -/
def run (alloc : Nat → Bool) (s : Session) (cs : List Command) : Option Session :=
  cs.foldlM (step alloc) s

/-- The session-state invariant of the specification: `N > 0` and both matrices
are exactly `N × N`. -/
def SessionInv (s : Session) : Prop :=
  0 < s.N ∧ IsSquare s.A s.N.toNat ∧ IsSquare s.B s.N.toNat

instance (s : Session) : Decidable (SessionInv s) := by
  unfold SessionInv
  infer_instance

/-- The selection is not a reload, or the load it performs returns true. Whether
a load returns true depends on the file alone, so it is evaluated from the
initial variables of `main`. -/
def reloadSucceeds (alloc : Nat → Bool) : Command → Bool
  | Command.reload file => (loadMatrices alloc file [] [] 0).ok
  | _ => true

/-! ## Basic lemmas -/

theorem foldlM_range_inv {σ : Type} (f : σ → Nat → Option σ) (P : Nat → σ → Prop) :
    ∀ (n : Nat) (s0 : σ), P 0 s0 →
      (∀ k s, k < n → P k s → ∃ s', f s k = some s' ∧ P (k + 1) s') →
      ∃ s', (List.range n).foldlM f s0 = some s' ∧ P n s' := by
  intro n
  induction n with
  | zero => intro s0 h0 _; exact ⟨s0, by simp, h0⟩
  | succ n ih =>
    intro s0 h0 hstep
    obtain ⟨s1, h1, hP1⟩ := ih s0 h0 (fun k s hk hP => hstep k s (Nat.lt_succ_of_lt hk) hP)
    obtain ⟨s2, h2, hP2⟩ := hstep n s1 (Nat.lt_succ_self n) hP1
    refine ⟨s2, ?_, hP2⟩
    rw [List.range_succ, List.foldlM_append, h1]
    simp [h2]

theorem IsSquare.row {M : Matrix} {n : Nat} (h : IsSquare M n) {i : Nat} (hi : i < n) :
    ∃ row, M[i]? = some row ∧ row.length = n := by
  obtain ⟨hl, hr⟩ := h
  have hi' : i < M.length := by omega
  exact ⟨M[i], List.getElem?_eq_getElem hi', hr _ (List.getElem_mem hi')⟩

theorem cellAt_eq_cell {M : Matrix} {n : Nat} (h : IsSquare M n) {i j : Nat}
    (hi : i < n) (hj : j < n) : cellAt M i j = some (cell M i j) := by
  obtain ⟨row, hrow, hlen⟩ := h.row hi
  have hj' : j < row.length := by omega
  simp [cellAt, cell, hrow, List.getElem?_eq_getElem hj']

theorem setCell_eq_putCell {M : Matrix} {n : Nat} (h : IsSquare M n) {i j : Nat}
    (hi : i < n) (hj : j < n) (v : Int) : setCell M i j v = some (putCell M i j v) := by
  obtain ⟨row, hrow, hlen⟩ := h.row hi
  simp [setCell, putCell, hrow, hlen, hj]

theorem IsSquare.putCell {M : Matrix} {n : Nat} (h : IsSquare M n) (i j : Nat) (v : Int) :
    IsSquare (putCell M i j v) n := by
  obtain ⟨hl, hr⟩ := h
  refine ⟨by simp [MatrixLab.putCell, hl], ?_⟩
  intro row hrow
  unfold MatrixLab.putCell at hrow
  rcases List.mem_or_eq_of_mem_set hrow with hm | he
  · exact hr row hm
  · subst he
    by_cases hi : i < M.length
    · rw [List.length_set, List.getElem?_eq_getElem hi]
      exact hr _ (List.getElem_mem hi)
    · rw [List.set_eq_of_length_le (by omega)] at hrow
      exact hr _ hrow

theorem cell_putCell {M : Matrix} {n : Nat} (h : IsSquare M n) {i j : Nat}
    (hi : i < n) (hj : j < n) (v : Int) (i' j' : Nat) :
    cell (putCell M i j v) i' j' = if i' = i ∧ j' = j then v else cell M i' j' := by
  obtain ⟨row, hrow, hlen⟩ := h.row hi
  have hi' : i < M.length := by rw [h.1]; exact hi
  have hj' : j < row.length := by omega
  unfold cell putCell
  by_cases e : i' = i
  · subst e
    by_cases e2 : j' = j
    · subst e2
      simp [hrow, List.getElem?_set, hi', hj']
    · have e3 : j ≠ j' := fun h => e2 h.symm
      simp [hrow, List.getElem?_set, hi', e2, e3]
  · have e3 : i ≠ i' := fun h => e h.symm
    simp [List.getElem?_set, e, e3]

theorem isSquare_replicate (n : Nat) :
    IsSquare (List.replicate n (List.replicate n (0 : Int))) n := by
  refine ⟨by simp, ?_⟩
  intro row hrow
  rw [List.eq_of_mem_replicate hrow]
  simp

theorem zeroMatrix_natCast (n : Nat) :
    zeroMatrix (n : Int) = some (List.replicate n (List.replicate n 0)) := by
  simp [zeroMatrix]

theorem cell_replicate (n i j : Nat) :
    cell (List.replicate n (List.replicate n (0 : Int))) i j = 0 := by
  unfold cell
  by_cases hi : i < n
  · by_cases hj : j < n
    · simp [hi, hj]
    · simp [hi, List.getElem?_replicate, hj]
  · simp [List.getElem?_replicate, hi]

/-- The wrapped value lies in the signed 64-bit range. -/
theorem wrap64_range (x : Int) : LLONG_MIN ≤ wrap64 x ∧ wrap64 x ≤ LLONG_MAX := by
  unfold wrap64 LLONG_MIN LLONG_MAX
  omega

/-- The wrapped value differs from the exact one by a multiple of `2^64`. -/
theorem wrap64_congr (x : Int) : (wrap64 x - x) % 18446744073709551616 = 0 := by
  unfold wrap64
  omega

/-- Values already in the signed 64-bit range are left alone. -/
theorem wrap64_of_range {x : Int} (h1 : LLONG_MIN ≤ x) (h2 : x ≤ LLONG_MAX) : wrap64 x = x := by
  unfold wrap64
  unfold LLONG_MIN at h1
  unfold LLONG_MAX at h2
  omega

theorem wrap64_add_left (a b : Int) : wrap64 (wrap64 a + b) = wrap64 (a + b) := by
  unfold wrap64
  omega

theorem wrap64_add_right (a b : Int) : wrap64 (a + wrap64 b) = wrap64 (a + b) := by
  unfold wrap64
  omega

/-! ## Operation engine: results -/

/-- The two nested loops of `add` run to completion on `N × N` inputs and fill
every cell with the wrapped sum of the operands' cells. -/
theorem add_loop (n : Nat) (A B : Matrix) (hA : IsSquare A n) (hB : IsSquare B n) :
    ∃ C, add A B (n : Int) = some C ∧ IsSquare C n ∧
      ∀ i j, i < n → j < n → cell C i j = wrap64 (cell A i j + cell B i j) := by
  unfold add
  rw [zeroMatrix_natCast]
  simp only [Int.toNat_ofNat]
  obtain ⟨C, hC, hsq, hcells⟩ := foldlM_range_inv
    (fun C i => (List.range n).foldlM (fun C j =>
        match cellAt A i j, cellAt B i j with
        | some a, some b => setCell C i j (wrap64 (a + b))
        | _, _ => none) C)
    (fun i C => IsSquare C n ∧
      ∀ i' j', i' < i → j' < n → cell C i' j' = wrap64 (cell A i' j' + cell B i' j'))
    n (List.replicate n (List.replicate n 0))
    ⟨isSquare_replicate n, fun i' j' h => absurd h (Nat.not_lt_zero _)⟩
    (by
      intro i C hi ⟨hsq, hdone⟩
      obtain ⟨C', hC', hsq', hrows, hrow⟩ := foldlM_range_inv
        (fun C j =>
          match cellAt A i j, cellAt B i j with
          | some a, some b => setCell C i j (wrap64 (a + b))
          | _, _ => none)
        (fun j C => IsSquare C n ∧
          (∀ i' j', i' < i → j' < n → cell C i' j' = wrap64 (cell A i' j' + cell B i' j')) ∧
          (∀ j', j' < j → cell C i j' = wrap64 (cell A i j' + cell B i j')))
        n C ⟨hsq, hdone, fun j' h => absurd h (Nat.not_lt_zero _)⟩
        (by
          intro j C1 hj ⟨hsq1, hrows1, hrow1⟩
          refine ⟨putCell C1 i j (wrap64 (cell A i j + cell B i j)), ?_, hsq1.putCell _ _ _, ?_, ?_⟩
          · simp only [cellAt_eq_cell hA hi hj, cellAt_eq_cell hB hi hj]
            exact setCell_eq_putCell hsq1 hi hj _
          · intro i' j' hi' hj'
            rw [cell_putCell hsq1 hi hj, if_neg (by omega)]
            exact hrows1 i' j' hi' hj'
          · intro j' hj'
            rw [cell_putCell hsq1 hi hj]
            by_cases e : j' = j
            · subst e; simp
            · rw [if_neg (by omega)]
              exact hrow1 j' (by omega))
      refine ⟨C', hC', hsq', ?_⟩
      intro i' j' hi' hj'
      by_cases e : i' = i
      · subst e; exact hrow j' hj'
      · exact hrows i' j' (by omega) hj')
  exact ⟨C, hC, hsq, hcells⟩

/-- C1: for every `N ≥ 0` and all `N × N` matrices `A`, `B`, `add(A, B, N)` returns
an `N × N` matrix `C` with `C[i][j] = A[i][j] + B[i][j]` reduced with 64-bit
two's-complement wraparound, for all `i, j` in `[0, N)`. -/
theorem add_spec (n : Nat) (A B : Matrix) (hA : IsSquare A n) (hB : IsSquare B n) :
    ∃ C, add A B (n : Int) = some C ∧ IsSquare C n ∧
      ∀ i j, i < n → j < n → cell C i j = wrap64 (cell A i j + cell B i j) := by
  obtain ⟨C, hC, hsq, hcells⟩ := add_loop n A B hA hB
  exact ⟨C, hC, hsq, fun i j hi hj => hcells i j hi hj⟩

theorem add_spec_witness :
    ∃ C, add [[1, 2], [3, 4]] [[5, 6], [7, 8]] ((2 : Nat) : Int) = some C ∧ IsSquare C 2 ∧
      ∀ i j, i < 2 → j < 2 →
        cell C i j = wrap64 (cell [[1, 2], [3, 4]] i j + cell [[5, 6], [7, 8]] i j) :=
  add_spec 2 [[1, 2], [3, 4]] [[5, 6], [7, 8]] (by decide) (by decide)

theorem dotWrap_succ (A B : Matrix) (i j k : Nat) :
    dotWrap A B i j (k + 1) = wrap64 (dotWrap A B i j k + wrap64 (cell A i k * cell B k j)) := by
  simp [dotWrap, List.range_succ, List.foldl_append]

theorem dotWrap_eq_sum (A B : Matrix) (i j n : Nat) :
    dotWrap A B i j n = wrap64 (∑ k ∈ Finset.range n, cell A i k * cell B k j) := by
  induction n with
  | zero => simp [dotWrap, wrap64]
  | succ n ih =>
    rw [dotWrap_succ, ih, Finset.sum_range_succ, wrap64_add_left, wrap64_add_right]

/-- The three nested loops of `multiply` run to completion on `N × N` inputs and
leave in every cell the wrapped running sum `dotWrap`. -/
theorem multiply_loop (n : Nat) (A B : Matrix) (hA : IsSquare A n) (hB : IsSquare B n) :
    ∃ C, multiply A B (n : Int) = some C ∧ IsSquare C n ∧
      ∀ i j, i < n → j < n → cell C i j = dotWrap A B i j n := by
  unfold multiply
  rw [zeroMatrix_natCast]
  simp only [Int.toNat_ofNat]
  have main : ∃ C, (List.range n).foldlM (fun C i =>
      (List.range n).foldlM (fun C k =>
        (List.range n).foldlM (fun C j =>
          match cellAt A i k, cellAt B k j, cellAt C i j with
          | some a, some b, some c => setCell C i j (wrap64 (c + wrap64 (a * b)))
          | _, _, _ => none) C) C) (List.replicate n (List.replicate n 0)) = some C ∧
      (IsSquare C n ∧
        (∀ i' j', i' < n → j' < n → cell C i' j' = dotWrap A B i' j' n) ∧
        (∀ i' j', n ≤ i' → cell C i' j' = 0)) := by
    refine foldlM_range_inv _
      (fun i C => IsSquare C n ∧
        (∀ i' j', i' < i → j' < n → cell C i' j' = dotWrap A B i' j' n) ∧
        (∀ i' j', i ≤ i' → cell C i' j' = 0))
      n _ ⟨isSquare_replicate n, fun i' j' h => absurd h (Nat.not_lt_zero _),
        fun i' j' _ => cell_replicate n i' j'⟩ ?_
    intro i C hi ⟨hsq, hdone, hzero⟩
    have mid : ∃ C', (List.range n).foldlM (fun C k =>
        (List.range n).foldlM (fun C j =>
          match cellAt A i k, cellAt B k j, cellAt C i j with
          | some a, some b, some c => setCell C i j (wrap64 (c + wrap64 (a * b)))
          | _, _, _ => none) C) C = some C' ∧
        (IsSquare C' n ∧
          (∀ i' j', i' < i → j' < n → cell C' i' j' = dotWrap A B i' j' n) ∧
          (∀ i' j', i < i' → cell C' i' j' = 0) ∧
          (∀ j', j' < n → cell C' i j' = dotWrap A B i j' n)) := by
      refine foldlM_range_inv _
        (fun k C' => IsSquare C' n ∧
          (∀ i' j', i' < i → j' < n → cell C' i' j' = dotWrap A B i' j' n) ∧
          (∀ i' j', i < i' → cell C' i' j' = 0) ∧
          (∀ j', j' < n → cell C' i j' = dotWrap A B i j' k))
        n C ⟨hsq, hdone, fun i' j' h => hzero i' j' (Nat.le_of_lt h),
          fun j' _ => by rw [hzero i j' (Nat.le_refl i)]; rfl⟩ ?_
      intro k C1 hk ⟨hsq1, hdone1, hzero1, hrow1⟩
      have inner : ∃ C', (List.range n).foldlM (fun C j =>
          match cellAt A i k, cellAt B k j, cellAt C i j with
          | some a, some b, some c => setCell C i j (wrap64 (c + wrap64 (a * b)))
          | _, _, _ => none) C1 = some C' ∧
          (IsSquare C' n ∧
            (∀ i' j', i' < i → j' < n → cell C' i' j' = dotWrap A B i' j' n) ∧
            (∀ i' j', i < i' → cell C' i' j' = 0) ∧
            (∀ j', j' < n →
              cell C' i j' = if j' < n then dotWrap A B i j' (k + 1) else dotWrap A B i j' k)) := by
        refine foldlM_range_inv _
          (fun j C' => IsSquare C' n ∧
            (∀ i' j', i' < i → j' < n → cell C' i' j' = dotWrap A B i' j' n) ∧
            (∀ i' j', i < i' → cell C' i' j' = 0) ∧
            (∀ j', j' < n →
              cell C' i j' = if j' < j then dotWrap A B i j' (k + 1) else dotWrap A B i j' k))
          n C1 ⟨hsq1, hdone1, hzero1, fun j' hj' => by simpa using hrow1 j' hj'⟩ ?_
        intro j C2 hj ⟨hsq2, hdone2, hzero2, hrow2⟩
        refine ⟨putCell C2 i j (wrap64 (cell C2 i j + wrap64 (cell A i k * cell B k j))), ?_,
          hsq2.putCell _ _ _, ?_, ?_, ?_⟩
        · simp only [cellAt_eq_cell hA hi hk, cellAt_eq_cell hB hk hj, cellAt_eq_cell hsq2 hi hj]
          exact setCell_eq_putCell hsq2 hi hj _
        · intro i' j' hi' hj'
          rw [cell_putCell hsq2 hi hj, if_neg (by omega)]
          exact hdone2 i' j' hi' hj'
        · intro i' j' hi'
          rw [cell_putCell hsq2 hi hj, if_neg (by omega)]
          exact hzero2 i' j' hi'
        · intro j' hj'
          rw [cell_putCell hsq2 hi hj]
          by_cases e : j' = j
          · subst e
            rw [if_pos ⟨rfl, rfl⟩, if_pos (Nat.lt_succ_self _), hrow2 j' hj',
              if_neg (Nat.lt_irrefl _), dotWrap_succ]
          · rw [if_neg (by omega), hrow2 j' hj']
            by_cases hlt : j' < j
            · rw [if_pos hlt, if_pos (by omega)]
            · rw [if_neg hlt, if_neg (by omega)]
      obtain ⟨C', hC', hsq', hdone', hzero', hrow'⟩ := inner
      exact ⟨C', hC', hsq', hdone', hzero', fun j' hj' => by rw [hrow' j' hj', if_pos hj']⟩
    obtain ⟨C', hC', hsq', hdone', hzero', hrow'⟩ := mid
    refine ⟨C', hC', hsq', ?_, fun i' j' h => hzero' i' j' h⟩
    intro i' j' hi' hj'
    by_cases e : i' = i
    · subst e; exact hrow' j' hj'
    · exact hdone' i' j' (by omega) hj'
  obtain ⟨C, hC, hsq, hcells, _⟩ := main
  exact ⟨C, hC, hsq, hcells⟩

/-- C2: for every `N ≥ 0` and all `N × N` matrices `A`, `B`, `multiply(A, B, N)`
returns an `N × N` matrix `C` whose entry `(i, j)` is the sum over `k` in `[0, N)`
of `A[i][k] * B[k][j]` with every multiplication and every accumulation wrapping
modulo `2^64` (`dotWrap`), which is the exact sum reduced once by `wrap64`: the
i-k-j loop order with in-place accumulation yields the standard product. -/
theorem multiply_spec (n : Nat) (A B : Matrix) (hA : IsSquare A n) (hB : IsSquare B n) :
    ∃ C, multiply A B (n : Int) = some C ∧ IsSquare C n ∧
      ∀ i j, i < n → j < n →
        cell C i j = dotWrap A B i j n ∧
        cell C i j = wrap64 (∑ k ∈ Finset.range n, cell A i k * cell B k j) := by
  obtain ⟨C, hC, hsq, hcells⟩ := multiply_loop n A B hA hB
  refine ⟨C, hC, hsq, ?_⟩
  intro i j hi hj
  have hcell := hcells i j hi hj
  exact ⟨hcell, by rw [hcell, dotWrap_eq_sum]⟩

theorem multiply_spec_witness :
    ∃ C, multiply [[1, 2], [3, 4]] [[5, 6], [7, 8]] ((2 : Nat) : Int) = some C ∧ IsSquare C 2 ∧
      ∀ i j, i < 2 → j < 2 →
        cell C i j = dotWrap [[1, 2], [3, 4]] [[5, 6], [7, 8]] i j 2 ∧
        cell C i j = wrap64 (∑ k ∈ Finset.range 2,
          cell [[1, 2], [3, 4]] i k * cell [[5, 6], [7, 8]] k j) :=
  multiply_spec 2 [[1, 2], [3, 4]] [[5, 6], [7, 8]] (by decide) (by decide)

theorem isSquare_set {M : Matrix} {n : Nat} (h : IsSquare M n) (i : Nat) (row : List Int)
    (hrow : row.length = n) : IsSquare (M.set i row) n := by
  obtain ⟨hl, hr⟩ := h
  refine ⟨by simp [hl], ?_⟩
  intro r hr'
  rcases List.mem_or_eq_of_mem_set hr' with hm | he
  · exact hr r hm
  · rw [he]; exact hrow

/-- C3: for every `N × N` matrix `M` and all `r1, r2` in `[0, N)`,
`swapRows(M, N, r1, r2)` returns true; afterwards row `r1` is the original row
`r2`, row `r2` is the original row `r1`, every other row is unchanged, and the
matrix is still `N × N`. -/
theorem swapRows_spec (n : Nat) (M : Matrix) (r1 r2 : Int) (hM : IsSquare M n)
    (h1 : 0 ≤ r1 ∧ r1 < (n : Int)) (h2 : 0 ≤ r2 ∧ r2 < (n : Int)) :
    ∃ M', swapRows M (n : Int) r1 r2 = some (true, M') ∧ IsSquare M' n ∧
      M'[r1.toNat]? = M[r2.toNat]? ∧ M'[r2.toNat]? = M[r1.toNat]? ∧
      ∀ i, i ≠ r1.toNat → i ≠ r2.toNat → M'[i]? = M[i]? := by
  have hguard : ¬ (r1 < 0 ∨ r2 < 0 ∨ r1 ≥ (n : Int) ∨ r2 ≥ (n : Int)) := by omega
  unfold swapRows
  rw [if_neg hguard]
  by_cases e : r1 = r2
  · rw [if_pos e]
    subst e
    exact ⟨M, rfl, hM, rfl, rfl, fun _ _ _ => rfl⟩
  · rw [if_neg e]
    have hn1 : r1.toNat < n := by omega
    have hn2 : r2.toNat < n := by omega
    have hne : r1.toNat ≠ r2.toNat := by omega
    obtain ⟨a, ha, hla⟩ := hM.row hn1
    obtain ⟨b, hb, hlb⟩ := hM.row hn2
    have hl1 : r1.toNat < M.length := by rw [hM.1]; exact hn1
    have hl2 : r2.toNat < M.length := by rw [hM.1]; exact hn2
    refine ⟨(M.set r1.toNat b).set r2.toNat a, by simp [ha, hb],
      isSquare_set (isSquare_set hM _ _ hlb) _ _ hla, ?_, ?_, ?_⟩
    · rw [List.getElem?_set_ne (Ne.symm hne), List.getElem?_set, if_pos rfl, if_pos hl1, hb]
    · rw [List.getElem?_set, if_pos rfl, if_pos (by simpa using hl2), ha]
    · intro i hi1 hi2
      rw [List.getElem?_set_ne (Ne.symm hi2), List.getElem?_set_ne (Ne.symm hi1)]

theorem swapRows_spec_witness :
    ∃ M', swapRows [[1, 2], [3, 4]] ((2 : Nat) : Int) 0 1 = some (true, M') ∧ IsSquare M' 2 ∧
      M'[(0 : Int).toNat]? = ([[1, 2], [3, 4]] : Matrix)[(1 : Int).toNat]? ∧
      M'[(1 : Int).toNat]? = ([[1, 2], [3, 4]] : Matrix)[(0 : Int).toNat]? ∧
      ∀ i, i ≠ (0 : Int).toNat → i ≠ (1 : Int).toNat →
        M'[i]? = ([[1, 2], [3, 4]] : Matrix)[i]? :=
  swapRows_spec 2 [[1, 2], [3, 4]] 0 1 (by decide) (by decide) (by decide)

/-- The loop of `swapCols` runs to completion on an `N × N` matrix for in-range
columns and exchanges the two columns in every row. -/
theorem swapCols_loop (n : Nat) (M : Matrix) (c1 c2 : Int) (hM : IsSquare M n)
    (h1 : 0 ≤ c1 ∧ c1 < (n : Int)) (h2 : 0 ≤ c2 ∧ c2 < (n : Int)) :
    ∃ M', swapCols M (n : Int) c1 c2 = some (true, M') ∧ IsSquare M' n ∧
      (∀ i, i < n →
        cell M' i c1.toNat = cell M i c2.toNat ∧
        cell M' i c2.toNat = cell M i c1.toNat ∧
        ∀ j, j ≠ c1.toNat → j ≠ c2.toNat → cell M' i j = cell M i j) ∧
      (c1 = c2 → M' = M) := by
  have hguard : ¬ (c1 < 0 ∨ c2 < 0 ∨ c1 ≥ (n : Int) ∨ c2 ≥ (n : Int)) := by omega
  unfold swapCols
  rw [if_neg hguard]
  by_cases e : c1 = c2
  · rw [if_pos e]
    subst e
    exact ⟨M, rfl, hM, fun i _ => ⟨rfl, rfl, fun _ _ _ => rfl⟩, fun _ => rfl⟩
  · rw [if_neg e]
    simp only [Int.toNat_ofNat]
    have hn1 : c1.toNat < n := by omega
    have hn2 : c2.toNat < n := by omega
    have hne : c1.toNat ≠ c2.toNat := by omega
    obtain ⟨M', hM', hsq', hcells⟩ := foldlM_range_inv
      (fun M i =>
        match cellAt M i c1.toNat, cellAt M i c2.toNat with
        | some x, some y =>
          match setCell M i c1.toNat y with
          | some M1 => setCell M1 i c2.toNat x
          | none => none
        | _, _ => none)
      (fun i C => IsSquare C n ∧ ∀ i' j', cell C i' j' =
        if i' < i then
          (if j' = c1.toNat then cell M i' c2.toNat
           else if j' = c2.toNat then cell M i' c1.toNat else cell M i' j')
        else cell M i' j')
      n M ⟨hM, fun i' j' => by simp⟩
      (by
        intro i C hi ⟨hsq, hC⟩
        have hx : cell C i c1.toNat = cell M i c1.toNat := by
          rw [hC, if_neg (Nat.lt_irrefl _)]
        have hy : cell C i c2.toNat = cell M i c2.toNat := by
          rw [hC, if_neg (Nat.lt_irrefl _)]
        have hsq1 := hsq.putCell i c1.toNat (cell M i c2.toNat)
        refine ⟨putCell (putCell C i c1.toNat (cell M i c2.toNat)) i c2.toNat (cell M i c1.toNat),
          ?_, hsq1.putCell _ _ _, ?_⟩
        · simp only [cellAt_eq_cell hsq hi hn1, cellAt_eq_cell hsq hi hn2, hx, hy,
            setCell_eq_putCell hsq hi hn1]
          exact setCell_eq_putCell hsq1 hi hn2 _
        · intro i' j'
          rw [cell_putCell hsq1 hi hn2, cell_putCell hsq hi hn1, hC]
          by_cases ei : i' = i
          · subst ei
            by_cases e2 : j' = c2.toNat
            · subst e2
              simp [Ne.symm hne]
            · by_cases e1 : j' = c1.toNat
              · subst e1; simp [hne]
              · simp [e1, e2]
          · have : (i' < i + 1) = (i' < i) := by
              apply propext; constructor <;> intro h <;> omega
            simp [ei, this])
    rw [hM']
    refine ⟨M', rfl, hsq', ?_, fun h => absurd h e⟩
    intro i hi
    refine ⟨?_, ?_, ?_⟩
    · rw [hcells, if_pos hi, if_pos rfl]
    · rw [hcells, if_pos hi, if_neg (Ne.symm hne), if_pos rfl]
    · intro j hj1 hj2
      rw [hcells, if_pos hi, if_neg hj1, if_neg hj2]

/-- C4: for every `N × N` matrix `M` and all `c1, c2` in `[0, N)`,
`swapCols(M, N, c1, c2)` returns true and in every row `i` in `[0, N)` the entries
of columns `c1` and `c2` are exchanged while every other column keeps its value;
the matrix is still `N × N`, and when `c1 = c2` it is unchanged. -/
theorem swapCols_spec (n : Nat) (M : Matrix) (c1 c2 : Int) (hM : IsSquare M n)
    (h1 : 0 ≤ c1 ∧ c1 < (n : Int)) (h2 : 0 ≤ c2 ∧ c2 < (n : Int)) :
    ∃ M', swapCols M (n : Int) c1 c2 = some (true, M') ∧ IsSquare M' n ∧
      (∀ i, i < n →
        cell M' i c1.toNat = cell M i c2.toNat ∧
        cell M' i c2.toNat = cell M i c1.toNat ∧
        ∀ j, j ≠ c1.toNat → j ≠ c2.toNat → cell M' i j = cell M i j) ∧
      (c1 = c2 → M' = M) := by
  obtain ⟨M', hM', hsq, hcells, hsame⟩ := swapCols_loop n M c1 c2 hM h1 h2
  exact ⟨M', hM', hsq, fun i hi => hcells i hi, hsame⟩

theorem swapCols_spec_witness :
    ∃ M', swapCols [[1, 2], [3, 4]] ((2 : Nat) : Int) 0 1 = some (true, M') ∧ IsSquare M' 2 ∧
      (∀ i, i < 2 →
        cell M' i (0 : Int).toNat = cell [[1, 2], [3, 4]] i (1 : Int).toNat ∧
        cell M' i (1 : Int).toNat = cell [[1, 2], [3, 4]] i (0 : Int).toNat ∧
        ∀ j, j ≠ (0 : Int).toNat → j ≠ (1 : Int).toNat →
          cell M' i j = cell [[1, 2], [3, 4]] i j) ∧
      ((0 : Int) = 1 → M' = [[1, 2], [3, 4]]) :=
  swapCols_spec 2 [[1, 2], [3, 4]] 0 1 (by decide) (by decide) (by decide)

/-- C5: for every `N × N` matrix `M`, all `r, c` in `[0, N)` and every value `v`,
`updateCell(M, N, r, c, v)` returns true, the resulting matrix has
`M'[r][c] = v` and every other cell keeps its value; and `updateCell` returns
true if and only if `0 ≤ r < N` and `0 ≤ c < N`. -/
theorem updateCell_spec (n : Nat) (M : Matrix) (r c v : Int) (hM : IsSquare M n) :
    ((0 ≤ r ∧ r < (n : Int)) ∧ (0 ≤ c ∧ c < (n : Int)) →
      ∃ M', updateCell M (n : Int) r c v = some (true, M') ∧ IsSquare M' n ∧
        cell M' r.toNat c.toNat = v ∧
        ∀ i j, ¬ (i = r.toNat ∧ j = c.toNat) → cell M' i j = cell M i j) ∧
    ((∃ M', updateCell M (n : Int) r c v = some (true, M')) ↔
      ((0 ≤ r ∧ r < (n : Int)) ∧ (0 ≤ c ∧ c < (n : Int)))) := by
  have inRange : (0 ≤ r ∧ r < (n : Int)) ∧ (0 ≤ c ∧ c < (n : Int)) →
      updateCell M (n : Int) r c v = some (true, putCell M r.toNat c.toNat v) := by
    intro h
    have hguard : ¬ (r < 0 ∨ c < 0 ∨ r ≥ (n : Int) ∨ c ≥ (n : Int)) := by omega
    have hr : r.toNat < n := by omega
    have hc : c.toNat < n := by omega
    unfold updateCell
    rw [if_neg hguard, setCell_eq_putCell hM hr hc]
  refine ⟨?_, ?_, ?_⟩
  · intro h
    have hr : r.toNat < n := by omega
    have hc : c.toNat < n := by omega
    refine ⟨_, inRange h, hM.putCell _ _ _, ?_, ?_⟩
    · rw [cell_putCell hM hr hc, if_pos ⟨rfl, rfl⟩]
    · intro i j hij
      rw [cell_putCell hM hr hc, if_neg hij]
  · rintro ⟨M', hM'⟩
    by_contra hout
    have hguard : r < 0 ∨ c < 0 ∨ r ≥ (n : Int) ∨ c ≥ (n : Int) := by omega
    unfold updateCell at hM'
    rw [if_pos hguard] at hM'
    simp at hM'
  · intro h
    exact ⟨_, inRange h⟩

theorem updateCell_spec_witness :
    ((0 ≤ (0 : Int) ∧ (0 : Int) < ((2 : Nat) : Int)) ∧ (0 ≤ (1 : Int) ∧ (1 : Int) < ((2 : Nat) : Int)) →
      ∃ M', updateCell [[1, 2], [3, 4]] ((2 : Nat) : Int) 0 1 99 = some (true, M') ∧
        IsSquare M' 2 ∧ cell M' (0 : Int).toNat (1 : Int).toNat = 99 ∧
        ∀ i j, ¬ (i = (0 : Int).toNat ∧ j = (1 : Int).toNat) →
          cell M' i j = cell [[1, 2], [3, 4]] i j) ∧
    ((∃ M', updateCell [[1, 2], [3, 4]] ((2 : Nat) : Int) 0 1 99 = some (true, M')) ↔
      ((0 ≤ (0 : Int) ∧ (0 : Int) < ((2 : Nat) : Int)) ∧
        (0 ≤ (1 : Int) ∧ (1 : Int) < ((2 : Nat) : Int)))) :=
  updateCell_spec 2 [[1, 2], [3, 4]] 0 1 99 (by decide)

/-- C6: for every matrix `M` (in particular every `N × N` one) and all integer
arguments `N`, indices and value, if any index argument is `< 0` or `≥ N` then `swapRows`, `swapCols` and
`updateCell` each return false and leave `M` exactly as it was; this includes
equal out-of-range indices. -/
theorem out_of_range_is_noop (M : Matrix) (N : Int) :
    (∀ r1 r2 : Int, (r1 < 0 ∨ r1 ≥ N) ∨ (r2 < 0 ∨ r2 ≥ N) →
      swapRows M N r1 r2 = some (false, M)) ∧
    (∀ c1 c2 : Int, (c1 < 0 ∨ c1 ≥ N) ∨ (c2 < 0 ∨ c2 ≥ N) →
      swapCols M N c1 c2 = some (false, M)) ∧
    (∀ r c v : Int, (r < 0 ∨ r ≥ N) ∨ (c < 0 ∨ c ≥ N) →
      updateCell M N r c v = some (false, M)) := by
  refine ⟨?_, ?_, ?_⟩
  · intro r1 r2 h
    have hguard : r1 < 0 ∨ r2 < 0 ∨ r1 ≥ N ∨ r2 ≥ N := by omega
    unfold swapRows
    rw [if_pos hguard]
  · intro c1 c2 h
    have hguard : c1 < 0 ∨ c2 < 0 ∨ c1 ≥ N ∨ c2 ≥ N := by omega
    unfold swapCols
    rw [if_pos hguard]
  · intro r c v h
    have hguard : r < 0 ∨ c < 0 ∨ r ≥ N ∨ c ≥ N := by omega
    unfold updateCell
    rw [if_pos hguard]

theorem out_of_range_is_noop_witness :
    swapRows [[1, 2], [3, 4]] 2 5 5 = some (false, [[1, 2], [3, 4]]) ∧
    swapCols [[1, 2], [3, 4]] 2 (-1) 0 = some (false, [[1, 2], [3, 4]]) ∧
    updateCell [[1, 2], [3, 4]] 2 0 2 7 = some (false, [[1, 2], [3, 4]]) :=
  ⟨(out_of_range_is_noop [[1, 2], [3, 4]] 2).1 5 5 (by decide),
   (out_of_range_is_noop [[1, 2], [3, 4]] 2).2.1 (-1) 0 (by decide),
   (out_of_range_is_noop [[1, 2], [3, 4]] 2).2.2 0 2 7 (by decide)⟩

theorem diagWrap_succ (M : Matrix) (col : Nat → Nat) (k : Nat) :
    diagWrap M col (k + 1) = wrap64 (diagWrap M col k + cell M k (col k)) := by
  simp [diagWrap, List.range_succ, List.foldl_append]

theorem diagWrap_eq_sum (M : Matrix) (col : Nat → Nat) (n : Nat) :
    diagWrap M col n = wrap64 (∑ i ∈ Finset.range n, cell M i (col i)) := by
  induction n with
  | zero => simp [diagWrap, wrap64]
  | succ n ih => rw [diagWrap_succ, ih, Finset.sum_range_succ, wrap64_add_left]

/-- The loop of `mainDiagonalSum` runs to completion on an `N × N` matrix and returns
the wrapped running sum of the main diagonal. -/
theorem mainDiagonalSum_loop (n : Nat) (M : Matrix) (hM : IsSquare M n) :
    mainDiagonalSum M (n : Int) = some (diagWrap M (fun i => i) n) := by
  unfold mainDiagonalSum
  simp only [Int.toNat_ofNat]
  obtain ⟨s, hs, hP⟩ := foldlM_range_inv
    (fun s i =>
      match cellAt M i i with
      | some x => some (wrap64 (s + x))
      | none => none)
    (fun i s => s = diagWrap M (fun i => i) i) n (0 : Int) rfl
    (by
      intro i s hi hs
      refine ⟨wrap64 (s + cell M i i), ?_, ?_⟩
      · simp only [cellAt_eq_cell hM hi hi]
      · subst hs; exact (diagWrap_succ _ _ _).symm)
  rw [hs, hP]

/-- C7: for every `N ≥ 0` and every `N × N` matrix `M`, `mainDiagonalSum(M, N)` is
the sum of `M[i][i]` over `i` in `[0, N)` computed with 64-bit wraparound (wrapping
at every step, equivalently once at the end), and it is `0` when `N = 0`. -/
theorem mainDiagonalSum_spec (n : Nat) (M : Matrix) (hM : IsSquare M n) :
    mainDiagonalSum M (n : Int) = some (diagWrap M (fun i => i) n) ∧
    mainDiagonalSum M (n : Int) = some (wrap64 (∑ i ∈ Finset.range n, cell M i i)) ∧
    (n = 0 → mainDiagonalSum M (n : Int) = some 0) := by
  have main := mainDiagonalSum_loop n M hM
  refine ⟨main, ?_, ?_⟩
  · rw [main, diagWrap_eq_sum]
  · intro h0
    subst h0
    rw [main]
    rfl

theorem mainDiagonalSum_spec_witness :
    mainDiagonalSum [[1, 2], [3, 4]] ((2 : Nat) : Int)
      = some (diagWrap [[1, 2], [3, 4]] (fun i => i) 2) ∧
    mainDiagonalSum [[1, 2], [3, 4]] ((2 : Nat) : Int)
      = some (wrap64 (∑ i ∈ Finset.range 2, cell [[1, 2], [3, 4]] i i)) ∧
    (2 = 0 → mainDiagonalSum [[1, 2], [3, 4]] ((2 : Nat) : Int) = some 0) :=
  mainDiagonalSum_spec 2 [[1, 2], [3, 4]] (by decide)

/-- The loop of `secondaryDiagonalSum` runs to completion on an `N × N` matrix and
returns the wrapped running sum of the secondary diagonal. -/
theorem secondaryDiagonalSum_loop (n : Nat) (M : Matrix) (hM : IsSquare M n) :
    secondaryDiagonalSum M (n : Int) = some (diagWrap M (fun i => n - 1 - i) n) := by
  unfold secondaryDiagonalSum
  simp only [Int.toNat_ofNat]
  obtain ⟨s, hs, hP⟩ := foldlM_range_inv
    (fun s (i : Nat) =>
      let c : Int := (n : Int) - 1 - (i : Int)
      if c < 0 then none
      else
        match cellAt M i c.toNat with
        | some x => some (wrap64 (s + x))
        | none => none)
    (fun i s => s = diagWrap M (fun i => n - 1 - i) i) n (0 : Int) rfl
    (by
      intro i s hi hs
      refine ⟨wrap64 (s + cell M i (n - 1 - i)), ?_, ?_⟩
      · have hc : ¬ ((n : Int) - 1 - (i : Int) < 0) := by omega
        have hcol : ((n : Int) - 1 - (i : Int)).toNat = n - 1 - i := by omega
        simp only [if_neg hc, hcol, cellAt_eq_cell hM hi (show n - 1 - i < n by omega)]
      · subst hs; exact (diagWrap_succ _ _ _).symm)
  rw [hs, hP]

/-- C8: for every `N ≥ 0` and every `N × N` matrix `M`,
`secondaryDiagonalSum(M, N)` is the sum of `M[i][N-1-i]` over `i` in `[0, N)`
computed with 64-bit wraparound (wrapping at every step, equivalently once at the
end). -/
theorem secondaryDiagonalSum_spec (n : Nat) (M : Matrix) (hM : IsSquare M n) :
    secondaryDiagonalSum M (n : Int) = some (diagWrap M (fun i => n - 1 - i) n) ∧
    secondaryDiagonalSum M (n : Int)
      = some (wrap64 (∑ i ∈ Finset.range n, cell M i (n - 1 - i))) := by
  have main := secondaryDiagonalSum_loop n M hM
  exact ⟨main, by rw [main, diagWrap_eq_sum]⟩

theorem secondaryDiagonalSum_spec_witness :
    secondaryDiagonalSum [[1, 2], [3, 4]] ((2 : Nat) : Int)
      = some (diagWrap [[1, 2], [3, 4]] (fun i => 2 - 1 - i) 2) ∧
    secondaryDiagonalSum [[1, 2], [3, 4]] ((2 : Nat) : Int)
      = some (wrap64 (∑ i ∈ Finset.range 2, cell [[1, 2], [3, 4]] i (2 - 1 - i))) :=
  secondaryDiagonalSum_spec 2 [[1, 2], [3, 4]] (by decide)

/-! ## Parser / loader: results -/

theorem not_isDigit_of_isSpace {c : Char} (h : isSpace c = true) : isDigit c = false := by
  simp only [isSpace, isDigit, Bool.or_eq_true, Bool.and_eq_true, decide_eq_true_eq,
    Bool.and_eq_false_imp] at h ⊢
  intro h1
  simp only [decide_eq_false_iff_not]
  omega

theorem tokens_eq_nil {s : List Char} (h : tokens s = []) : s.dropWhile isSpace = [] := by
  induction s with
  | nil => rfl
  | cons c cs ih =>
    by_cases hc : isSpace c = true
    · rw [List.dropWhile_cons_of_pos hc]
      apply ih
      simpa [tokens, hc] using h
    · exfalso
      cases cs with
      | nil => simp [tokens, hc] at h
      | cons d r =>
        by_cases hd : isSpace d = true
        · simp [tokens, hc, hd] at h
        · have h' : (tokens (d :: r)).modifyHead (fun t => c :: t) = [] := by
            simpa [tokens, hc, hd] using h
          have h2 : tokens (d :: r) = [] := by
            cases hts : tokens (d :: r) with
            | nil => rfl
            | cons t ts => rw [hts] at h'; simp at h'
          have := ih h2
          rw [List.dropWhile_cons_of_neg hd] at this
          simp at this

/-- The first token is what follows the leading whitespace, up to the next
whitespace or the end; the remaining tokens are those of the text after it. -/
theorem tokens_cons {s : List Char} {t : List Char} {ts : List (List Char)}
    (h : tokens s = t :: ts) :
    ∃ rest, s.dropWhile isSpace = t ++ rest ∧ t ≠ [] ∧ (∀ c ∈ t, isSpace c = false) ∧
      AtBoundary rest ∧ tokens rest = ts := by
  induction s generalizing t ts with
  | nil => simp [tokens] at h
  | cons c cs ih =>
    by_cases hc : isSpace c = true
    · rw [List.dropWhile_cons_of_pos hc]
      apply ih
      simpa [tokens, hc] using h
    · rw [List.dropWhile_cons_of_neg hc]
      have hc' : isSpace c = false := by simpa using hc
      cases cs with
      | nil =>
        have h' : t = [c] ∧ ts = [] := by
          have : [[c]] = t :: ts := by simpa [tokens, hc] using h
          obtain ⟨e1, e2⟩ := List.cons.inj this
          exact ⟨e1.symm, e2.symm⟩
        obtain ⟨rfl, rfl⟩ := h'
        exact ⟨[], by simp, by simp, by simpa using hc', fun d r hd => by simp at hd, rfl⟩
      | cons d r =>
        by_cases hd : isSpace d = true
        · have h' : [c] :: tokens (d :: r) = t :: ts := by simpa [tokens, hc, hd] using h
          have h1 : t = [c] := (List.cons.inj h').1.symm
          have h2 : tokens (d :: r) = ts := (List.cons.inj h').2
          subst h1
          refine ⟨d :: r, by simp, by simp, by simpa using hc', ?_, h2⟩
          intro d' r' he
          simp at he
          rw [← he.1]; exact hd
        · have h' : (tokens (d :: r)).modifyHead (fun t => c :: t) = t :: ts := by
            simpa [tokens, hc, hd] using h
          cases hts : tokens (d :: r) with
          | nil => rw [hts] at h'; simp at h'
          | cons t' ts' =>
            rw [hts] at h'
            have h' := List.cons.inj h'
            obtain ⟨rest, h1, h2, h3, h4, h5⟩ := ih hts
            rw [List.dropWhile_cons_of_neg hd] at h1
            refine ⟨rest, ?_, ?_, ?_, h4, ?_⟩
            · rw [h1, ← h'.1]; simp
            · rw [← h'.1]; simp
            · intro x hx
              rw [← h'.1] at hx
              rcases List.mem_cons.mp hx with hx | hx
              · rw [hx]; exact hc'
              · exact h3 x hx
            · rw [h5]; exact h'.2

theorem takeWhile_digits_boundary {body rest : List Char}
    (hall : ∀ c ∈ body, isDigit c = true) (hrest : AtBoundary rest) :
    (body ++ rest).takeWhile isDigit = body ∧ (body ++ rest).dropWhile isDigit = rest := by
  have hr : rest.takeWhile isDigit = [] ∧ rest.dropWhile isDigit = rest := by
    cases rest with
    | nil => simp
    | cons d r =>
      have hd := not_isDigit_of_isSpace (hrest d r rfl)
      simp [hd]
  rw [List.takeWhile_append_of_pos hall, List.dropWhile_append_of_pos hall, hr.1, hr.2]
  simp

/-- Extraction at a token that is a whole integer consumes exactly that token. -/
theorem extractInt_token {s t rest : List Char} {v : Int} (lo hi : Int)
    (hs : s.dropWhile isSpace = t ++ rest) (hrest : AtBoundary rest)
    (hv : tokenInt t = some v) :
    extractInt lo hi s = (outcome lo hi v, rest) := by
  cases t with
  | nil => simp [tokenInt] at hv
  | cons c cs =>
    unfold extractInt
    rw [hs]
    simp only [List.cons_append]
    unfold tokenInt at hv
    simp only at hv
    by_cases hsign : c = '-' ∨ c = '+'
    · rw [if_pos hsign] at hv
      rw [if_pos hsign]
      by_cases hb : cs ≠ [] ∧ cs.all isDigit = true
      · rw [if_pos hb] at hv
        have hall : ∀ x ∈ cs, isDigit x = true := by simpa using hb.2
        obtain ⟨h1, h2⟩ := takeWhile_digits_boundary hall hrest
        rw [h1, h2, if_neg hb.1]
        have hv' := Option.some.inj hv
        by_cases hneg : c = '-'
        · simp only [hneg, if_true] at hv'
          simp only [hneg, decide_True, if_true, hv']
          unfold outcome
          split_ifs <;> rfl
        · simp only [hneg, if_false] at hv'
          simp only [hneg, decide_False, hv']
          unfold outcome
          simp only [Bool.false_eq_true, if_false]
          split_ifs <;> rfl
      · rw [if_neg hb] at hv
        exact absurd hv (by simp)
    · rw [if_neg hsign] at hv
      rw [if_neg hsign]
      have hneg : ¬ c = '-' := fun h => hsign (Or.inl h)
      by_cases hb : c :: cs ≠ [] ∧ (c :: cs).all isDigit = true
      · rw [if_pos hb] at hv
        have hall : ∀ x ∈ c :: cs, isDigit x = true := by simpa using hb.2
        obtain ⟨h1, h2⟩ := takeWhile_digits_boundary hall hrest
        rw [← List.cons_append, h1, h2, if_neg hb.1]
        have hv' := Option.some.inj hv
        simp only [hneg, if_false] at hv'
        simp only [hneg, decide_False, hv']
        unfold outcome
        simp only [Bool.false_eq_true, if_false]
        split_ifs <;> rfl
      · rw [if_neg hb] at hv
        exact absurd hv (by simp)

/-- Reading one integer token that fits the target: the value is delivered and
the stream continues with the remaining tokens. -/
theorem extractInt_next {s t : List Char} {ts : List (List Char)} {v : Int} (lo hi : Int)
    (htok : tokens s = t :: ts) (hv : tokenInt t = some v) (hlo : lo ≤ v) (hhi : v ≤ hi) :
    ∃ s', extractInt lo hi s = (Extracted.value v, s') ∧ tokens s' = ts := by
  obtain ⟨rest, h1, _, _, h4, h5⟩ := tokens_cons htok
  refine ⟨rest, ?_, h5⟩
  rw [extractInt_token lo hi h1 h4 hv]
  simp [outcome, not_lt.mpr hlo, not_lt.mpr hhi]

/-- The inner read loop on a stream that starts with enough integer tokens:
every read succeeds, the columns `j0, …, j0 + m - 1` of row `i` receive the token
values in order and nothing else changes. -/
theorem readRow_spec (n i : Nat) (hi : i < n) :
    ∀ (m j0 : Nat) (M : Matrix) (s : List Char) (ts : List (List Char)) (vs : List Int)
      (rest : List (List Char)),
      IsSquare M n → j0 + m ≤ n → tokens s = ts ++ rest →
      ts.map tokenInt = vs.map some → vs.length = m →
      (∀ v ∈ vs, LLONG_MIN ≤ v ∧ v ≤ LLONG_MAX) →
      ∃ M' s', readRow i (List.range' j0 m) M s = (true, M', s') ∧ tokens s' = rest ∧
        IsSquare M' n ∧
        ∀ i' j', cell M' i' j' =
          if i' = i ∧ j0 ≤ j' ∧ j' < j0 + m then vs[j' - j0]?.getD 0 else cell M i' j' := by
  intro m
  induction m with
  | zero =>
    intro j0 M s ts vs rest hM _ htok hmap hlen _
    have hvs : vs = [] := List.length_eq_zero.mp hlen
    subst hvs
    have hts : ts = [] := by simpa using hmap
    subst hts
    refine ⟨M, s, by simp [readRow], by simpa using htok, hM, ?_⟩
    intro i' j'
    rw [if_neg (by omega)]
  | succ m ih =>
    intro j0 M s ts vs rest hM hj htok hmap hlen hr
    cases vs with
    | nil => simp at hlen
    | cons v vs' =>
    cases ts with
    | nil => simp at hmap
    | cons t ts' =>
    simp only [List.map_cons, List.cons.injEq] at hmap
    obtain ⟨ht, hmap'⟩ := hmap
    have hvr := hr v (List.mem_cons_self _ _)
    obtain ⟨s1, hext, htok1⟩ := extractInt_next LLONG_MIN LLONG_MAX
      (by simpa using htok) ht hvr.1 hvr.2
    have hj0 : j0 < n := by omega
    obtain ⟨M', s', hread, htok', hsq', hcells⟩ := ih (j0 + 1) (putCell M i j0 v) s1 ts' vs' rest
      (hM.putCell _ _ _) (by omega) htok1 hmap' (by simpa using hlen)
      (fun x hx => hr x (List.mem_cons_of_mem _ hx))
    refine ⟨M', s', ?_, htok', hsq', ?_⟩
    · rw [List.range'_succ]
      simp only [readRow, hext]
      exact hread
    · intro i' j'
      rw [hcells, cell_putCell hM hi hj0]
      by_cases hc : i' = i ∧ j0 + 1 ≤ j' ∧ j' < j0 + 1 + m
      · rw [if_pos hc, if_pos ⟨hc.1, by omega, by omega⟩]
        have : j' - j0 = (j' - (j0 + 1)) + 1 := by omega
        rw [this, List.getElem?_cons_succ]
      · rw [if_neg hc]
        by_cases hc0 : i' = i ∧ j' = j0
        · rw [if_pos hc0, if_pos ⟨hc0.1, by omega, by omega⟩, hc0.2]
          simp
        · rw [if_neg hc0, if_neg (by omega)]

/-- The outer read loop on a stream that starts with enough integer tokens: the
rows `i0, …, i0 + m - 1` are filled row-major with the token values. -/
theorem readRows_spec (n : Nat) :
    ∀ (m i0 : Nat) (M : Matrix) (s : List Char) (ts : List (List Char)) (vs : List Int)
      (rest : List (List Char)),
      IsSquare M n → i0 + m ≤ n → tokens s = ts ++ rest →
      ts.map tokenInt = vs.map some → vs.length = m * n →
      (∀ v ∈ vs, LLONG_MIN ≤ v ∧ v ≤ LLONG_MAX) →
      ∃ M' s', readRows n (List.range' i0 m) M s = (true, M', s') ∧ tokens s' = rest ∧
        IsSquare M' n ∧
        ∀ i' j', cell M' i' j' =
          if i0 ≤ i' ∧ i' < i0 + m ∧ j' < n then vs[(i' - i0) * n + j']?.getD 0
          else cell M i' j' := by
  intro m
  induction m with
  | zero =>
    intro i0 M s ts vs rest hM _ htok hmap hlen _
    have hvs : vs = [] := List.length_eq_zero.mp (by simpa using hlen)
    subst hvs
    have hts : ts = [] := by simpa using hmap
    subst hts
    refine ⟨M, s, by simp [readRows], by simpa using htok, hM, ?_⟩
    intro i' j'
    rw [if_neg (by omega)]
  | succ m ih =>
    intro i0 M s ts vs rest hM hi htok hmap hlen hr
    have hlen' : vs.length = n + m * n := by rw [hlen, Nat.succ_mul]; omega
    have htslen : ts.length = vs.length := by
      have := congrArg List.length hmap
      simpa using this
    have hi0 : i0 < n := by omega
    obtain ⟨M1, s1, hread1, htok1, hsq1, hcells1⟩ := readRow_spec n i0 hi0 n 0 M s
      (ts.take n) (vs.take n) (ts.drop n ++ rest) hM (by omega)
      (by rw [← List.append_assoc, List.take_append_drop]; exact htok)
      (by rw [List.map_take, List.map_take, hmap])
      (by rw [List.length_take]; omega)
      (fun x hx => hr x (List.mem_of_mem_take hx))
    obtain ⟨M', s', hread, htok', hsq', hcells⟩ := ih (i0 + 1) M1 s1 (ts.drop n) (vs.drop n) rest
      hsq1 (by omega) htok1
      (by rw [List.map_drop, List.map_drop, hmap])
      (by rw [List.length_drop]; omega)
      (fun x hx => hr x (List.mem_of_mem_drop hx))
    refine ⟨M', s', ?_, htok', hsq', ?_⟩
    · rw [List.range'_succ]
      simp only [readRows, List.range_eq_range', hread1]
      exact hread
    · intro i' j'
      rw [hcells, hcells1]
      by_cases hc : i0 + 1 ≤ i' ∧ i' < i0 + 1 + m ∧ j' < n
      · rw [if_pos hc, if_pos ⟨by omega, by omega, hc.2.2⟩, List.getElem?_drop]
        have : n + ((i' - (i0 + 1)) * n + j') = (i' - i0) * n + j' := by
          have e : i' - i0 = (i' - (i0 + 1)) + 1 := by omega
          rw [e, Nat.succ_mul]
          omega
        rw [this]
      · rw [if_neg hc]
        by_cases hc0 : i' = i0 ∧ 0 ≤ j' ∧ j' < 0 + n
        · rw [if_pos hc0, if_pos ⟨by omega, by omega, by omega⟩, List.getElem?_take]
          have e : (i' - i0) * n + j' = j' := by
            rw [hc0.1]; simp
          rw [e, Nat.sub_zero, if_pos (by omega)]
        · rw [if_neg hc0, if_neg (by omega)]

theorem index_lt_square {n i j : Nat} (hi : i < n) (hj : j < n) : i * n + j < n * n := by
  have h1 : i * n + j < (i + 1) * n := by rw [Nat.succ_mul]; omega
  have h2 : (i + 1) * n ≤ n * n := Nat.mul_le_mul_right n hi
  omega

/-- A source that starts with a dimension in the `int` range, for which the two
matrices can be allocated, and `2·N²` cell values in the 64-bit range is loaded in
full, row-major, `A` then `B`, whatever the caller's variables held before. -/
theorem loadMatrices_contents (alloc : Nat → Bool) (src tN : List Char)
    (cellToks extra : List (List Char)) (n : Nat)
    (vals : List Int) (A0 B0 : Matrix) (N0 : Int)
    (htok : tokens src = tN :: (cellToks ++ extra))
    (hN : tokenInt tN = some (n : Int)) (hpos : 0 < n) (hmax : (n : Int) ≤ INT_MAX)
    (halloc : alloc n = true)
    (hcells : cellToks.map tokenInt = vals.map some)
    (hlen : vals.length = 2 * (n * n))
    (hrange : ∀ v ∈ vals, LLONG_MIN ≤ v ∧ v ≤ LLONG_MAX) :
    ∃ A B, loadMatrices alloc (some src) A0 B0 N0 = ⟨LoadStatus.loaded, A, B, (n : Int)⟩ ∧
      (loadMatrices alloc (some src) A0 B0 N0).ok = true ∧
      IsSquare A n ∧ IsSquare B n ∧
      ∀ i j, i < n → j < n →
        vals[i * n + j]? = some (cell A i j) ∧
        vals[n * n + (i * n + j)]? = some (cell B i j) := by
  have hmin : INT_MIN ≤ (n : Int) := by unfold INT_MIN; omega
  obtain ⟨s1, hext, htok1⟩ := extractInt_next INT_MIN INT_MAX htok hN hmin hmax
  have htl : cellToks.length = vals.length := by
    have := congrArg List.length hcells
    simpa using this
  obtain ⟨A, s2, hreadA, htok2, hsqA, hcellA⟩ := readRows_spec n n 0
    (List.replicate n (List.replicate n 0)) s1
    (cellToks.take (n * n)) (vals.take (n * n)) (cellToks.drop (n * n) ++ extra)
    (isSquare_replicate n) (by omega)
    (by rw [← List.append_assoc, List.take_append_drop]; exact htok1)
    (by rw [List.map_take, List.map_take, hcells])
    (by rw [List.length_take]; omega)
    (fun x hx => hrange x (List.mem_of_mem_take hx))
  obtain ⟨B, s3, hreadB, _, hsqB, hcellB⟩ := readRows_spec n n 0
    (List.replicate n (List.replicate n 0)) s2
    (cellToks.drop (n * n)) (vals.drop (n * n)) extra
    (isSquare_replicate n) (by omega) htok2
    (by rw [List.map_drop, List.map_drop, hcells])
    (by rw [List.length_drop]; omega)
    (fun x hx => hrange x (List.mem_of_mem_drop hx))
  have hload : loadMatrices alloc (some src) A0 B0 N0
      = ⟨LoadStatus.loaded, A, B, (n : Int)⟩ := by
    unfold loadMatrices
    simp only [hext]
    rw [if_neg (by omega)]
    simp only [Int.toNat_ofNat]
    rw [if_pos halloc]
    simp only [List.range_eq_range', hreadA, hreadB]
  refine ⟨A, B, hload, by rw [hload]; rfl, hsqA, hsqB, ?_⟩
  intro i j hi hj
  have hk := index_lt_square hi hj
  have hkA : i * n + j < vals.length := by omega
  have hkB : n * n + (i * n + j) < vals.length := by omega
  refine ⟨?_, ?_⟩
  · rw [hcellA, if_pos ⟨Nat.zero_le _, by omega, hj⟩, List.getElem?_take, Nat.sub_zero,
      if_pos hk, List.getElem?_eq_getElem hkA]
    simp
  · rw [hcellB, if_pos ⟨Nat.zero_le _, by omega, hj⟩, List.getElem?_drop, Nat.sub_zero,
      List.getElem?_eq_getElem hkB]
    simp

/-- The dimension token is an integer above `INT_MAX`: the extraction into the
`int` fails, `INT_MAX` is stored and the load ends at the dimension check. -/
theorem loadMatrices_dimension_too_big {src t : List Char} {ts : List (List Char)} {v : Int}
    (alloc : Nat → Bool) (A B : Matrix) (N : Int) (htok : tokens src = t :: ts)
    (hv : tokenInt t = some v) (hbig : INT_MAX < v) :
    loadMatrices alloc (some src) A B N = ⟨LoadStatus.invalidN, A, B, INT_MAX⟩ := by
  obtain ⟨rest, h1, _, _, h4, _⟩ := tokens_cons htok
  have hext := extractInt_token INT_MIN INT_MAX h1 h4 hv
  have hout : outcome INT_MIN INT_MAX v = Extracted.failed INT_MAX := by
    unfold outcome
    have : ¬ v < INT_MIN := by unfold INT_MIN; unfold INT_MAX at hbig; omega
    rw [if_neg this, if_pos hbig]
  rw [hout] at hext
  unfold loadMatrices
  simp only [hext]

/-- The dimension token is a positive integer of the `int` range for which the
machine cannot allocate the matrices: the allocation throws before any cell is
read and the call does not return. -/
theorem loadMatrices_alloc_fails {src t : List Char} {ts : List (List Char)} {n : Nat}
    (alloc : Nat → Bool) (A B : Matrix) (N : Int) (htok : tokens src = t :: ts)
    (hv : tokenInt t = some (n : Int)) (hpos : 0 < n) (hmax : (n : Int) ≤ INT_MAX)
    (halloc : alloc n = false) :
    loadMatrices alloc (some src) A B N = ⟨LoadStatus.allocFailed, A, B, (n : Int)⟩ := by
  have hmin : INT_MIN ≤ (n : Int) := by unfold INT_MIN; omega
  obtain ⟨s1, hext, _⟩ := extractInt_next INT_MIN INT_MAX htok hv hmin hmax
  unfold loadMatrices
  simp only [hext]
  rw [if_neg (by omega)]
  simp only [Int.toNat_ofNat]
  rw [if_neg (by rw [halloc]; simp)]

/-- The outcome of an extraction in terms of the integer at the start of the
trimmed text. -/
theorem extractInt_fst (lo hi : Int) (s : List Char) :
    (extractInt lo hi s).1 =
      match leadingInt s with
      | some v => outcome lo hi v
      | none => if s.dropWhile isSpace = [] then Extracted.noInput else Extracted.failed 0 := by
  unfold extractInt leadingInt
  cases hd : s.dropWhile isSpace with
  | nil => simp
  | cons c cs =>
    simp only
    by_cases hds : (if c = '-' ∨ c = '+' then cs else c :: cs).takeWhile isDigit = []
    · simp [hds]
    · simp only [if_neg hds, outcome]
      by_cases hneg : c = '-'
      · simp only [hneg, decide_True, if_true]
        split_ifs <;> rfl
      · simp only [hneg, decide_False, if_false, Bool.false_eq_true]
        split_ifs <;> rfl

theorem takeWhile_isDigit_append_boundary {rest : List Char} (hrest : AtBoundary rest) :
    ∀ l : List Char, (l ++ rest).takeWhile isDigit = l.takeWhile isDigit := by
  intro l
  induction l with
  | nil =>
    cases rest with
    | nil => rfl
    | cons d r => simp [not_isDigit_of_isSpace (hrest d r rfl)]
  | cons x xs ih =>
    by_cases hx : isDigit x = true
    · rw [List.cons_append, List.takeWhile_cons_of_pos hx, List.takeWhile_cons_of_pos hx, ih]
    · rw [List.cons_append, List.takeWhile_cons_of_neg hx, List.takeWhile_cons_of_neg hx]

/-- The integer at the start of the trimmed source is the integer at the start of
its first token. -/
theorem leadingInt_first_token {src t : List Char} {ts : List (List Char)}
    (htok : tokens src = t :: ts) : leadingInt src = leadingInt t := by
  obtain ⟨rest, h1, h2, h3, h4, _⟩ := tokens_cons htok
  cases t with
  | nil => exact absurd rfl h2
  | cons c cs =>
    have hc : ¬ isSpace c = true := by
      rw [h3 c (List.mem_cons_self _ _)]; simp
    unfold leadingInt
    rw [h1, List.dropWhile_cons_of_neg hc]
    simp only [List.cons_append]
    by_cases hsign : c = '-' ∨ c = '+'
    · simp only [if_pos hsign, takeWhile_isDigit_append_boundary h4 cs]
    · simp only [if_neg hsign]
      rw [← List.cons_append, takeWhile_isDigit_append_boundary h4 (c :: cs)]

/-- A token that is a whole integer begins with that integer. -/
theorem leadingInt_of_tokenInt {t : List Char} {v : Int} (h : tokenInt t = some v) :
    leadingInt t = some v := by
  cases t with
  | nil => simp [tokenInt] at h
  | cons c cs =>
    have hnil : AtBoundary ([] : List Char) := fun d r hd => by simp at hd
    by_cases hsp : isSpace c = true
    · exfalso
      have hnd := not_isDigit_of_isSpace hsp
      unfold tokenInt at h
      simp only at h
      have hns : ¬ (c = '-' ∨ c = '+') := by
        rintro (e | e) <;> (rw [e] at hsp; exact absurd hsp (by decide))
      rw [if_neg hns] at h
      by_cases hb : c :: cs ≠ [] ∧ (c :: cs).all isDigit = true
      · have := hb.2
        simp [hnd] at this
      · rw [if_neg hb] at h
        exact absurd h (by simp)
    · unfold leadingInt
      rw [List.dropWhile_cons_of_neg hsp]
      unfold tokenInt at h
      simp only at h ⊢
      by_cases hb : (if c = '-' ∨ c = '+' then cs else c :: cs) ≠ [] ∧
          (if c = '-' ∨ c = '+' then cs else c :: cs).all isDigit = true
      · rw [if_pos hb] at h
        have hall : ∀ x ∈ (if c = '-' ∨ c = '+' then cs else c :: cs), isDigit x = true := by
          simpa using hb.2
        have htw := (takeWhile_digits_boundary hall hnil).1
        rw [List.append_nil] at htw
        rw [htw, if_neg hb.1]
        exact h
      · rw [if_neg hb] at h
        exact absurd h (by simp)

/-- The invalid-dimension exit is taken exactly when the source does not begin,
after its leading whitespace, with a decimal integer that is positive and within
the `int` range. -/
theorem loadMatrices_invalidN_iff (alloc : Nat → Bool) (src : List Char) (A B : Matrix)
    (N : Int) :
    (loadMatrices alloc (some src) A B N).status = LoadStatus.invalidN ↔
      ¬ ∃ p, leadingInt src = some p ∧ 0 < p ∧ p ≤ INT_MAX := by
  have hfst := extractInt_fst INT_MIN INT_MAX src
  rcases hx : extractInt INT_MIN INT_MAX src with ⟨e, s1⟩
  rw [hx] at hfst
  simp only at hfst
  unfold loadMatrices
  simp only [hx]
  cases hl : leadingInt src with
  | none =>
    rw [hl] at hfst
    simp only at hfst
    have hno : ¬ ∃ p, (none : Option Int) = some p ∧ 0 < p ∧ p ≤ INT_MAX := by
      rintro ⟨p, hp, _⟩
      exact absurd hp (by simp)
    refine ⟨fun _ => hno, fun _ => ?_⟩
    rw [hfst]
    split_ifs <;> rfl
  | some w =>
    rw [hl] at hfst
    simp only at hfst
    rw [hfst]
    unfold outcome
    by_cases h1 : w < INT_MIN
    · simp only [if_pos h1]
      refine ⟨fun _ => ?_, fun _ => trivial⟩
      rintro ⟨p, hp, hpos, _⟩
      rw [← Option.some.inj hp] at hpos
      unfold INT_MIN at h1
      omega
    · simp only [if_neg h1]
      by_cases h2 : w > INT_MAX
      · simp only [if_pos h2]
        refine ⟨fun _ => ?_, fun _ => trivial⟩
        rintro ⟨p, hp, _, hmax⟩
        rw [← Option.some.inj hp] at hmax
        omega
      · simp only [if_neg h2]
        by_cases h3 : w ≤ 0
        · simp only [if_pos h3]
          refine ⟨fun _ => ?_, fun _ => trivial⟩
          rintro ⟨p, hp, hpos, _⟩
          rw [← Option.some.inj hp] at hpos
          omega
        · simp only [if_neg h3]
          have hyes : ∃ p, some w = some p ∧ 0 < p ∧ p ≤ INT_MAX :=
            ⟨w, rfl, by omega, by omega⟩
          refine ⟨fun h => ?_, fun h => absurd hyes h⟩
          exfalso
          revert h
          split_ifs
          · split
            · simp
            · split <;> simp
          · simp

/-- C10 (amended): `loadMatrices` returns false reporting an invalid dimension
whenever the first token of the source is absent, is not a number and does not
begin with a positive integer of the `int` range, or is an integer `≤ 0`; and it
never reports an invalid dimension when the first token is a positive integer
within the `int` range. Exactly: the invalid dimension is reported if and only if
the first token does not begin with a decimal integer that is positive and within
the `int` range. -/
theorem loadMatrices_invalid_dimension (alloc : Nat → Bool) (src : List Char) (A B : Matrix)
    (N : Int) :
    (tokens src = [] →
      (loadMatrices alloc (some src) A B N).status = LoadStatus.invalidN ∧
      (loadMatrices alloc (some src) A B N).returned = some false) ∧
    (∀ t ts, tokens src = t :: ts → tokenInt t = none →
      (¬ ∃ p, leadingInt t = some p ∧ 0 < p ∧ p ≤ INT_MAX) →
      (loadMatrices alloc (some src) A B N).status = LoadStatus.invalidN ∧
      (loadMatrices alloc (some src) A B N).returned = some false) ∧
    (∀ t ts v, tokens src = t :: ts → tokenInt t = some v → v ≤ 0 →
      (loadMatrices alloc (some src) A B N).status = LoadStatus.invalidN ∧
      (loadMatrices alloc (some src) A B N).returned = some false) ∧
    (∀ t ts v, tokens src = t :: ts → tokenInt t = some v → 0 < v → v ≤ INT_MAX →
      (loadMatrices alloc (some src) A B N).status ≠ LoadStatus.invalidN) ∧
    (∀ t ts, tokens src = t :: ts →
      ((loadMatrices alloc (some src) A B N).status = LoadStatus.invalidN ↔
        ¬ ∃ p, leadingInt t = some p ∧ 0 < p ∧ p ≤ INT_MAX)) := by
  have hiff := loadMatrices_invalidN_iff alloc src A B N
  have hret : (loadMatrices alloc (some src) A B N).status = LoadStatus.invalidN →
      (loadMatrices alloc (some src) A B N).status = LoadStatus.invalidN ∧
      (loadMatrices alloc (some src) A B N).returned = some false := by
    intro h
    refine ⟨h, ?_⟩
    unfold LoadResult.returned
    rw [h]
  refine ⟨?_, ?_, ?_, ?_, ?_⟩
  · intro h
    apply hret
    rw [hiff]
    rintro ⟨p, hp, _⟩
    have hd := tokens_eq_nil h
    unfold leadingInt at hp
    rw [hd] at hp
    exact absurd hp (by simp)
  · intro t ts h _ hno
    apply hret
    rw [hiff, leadingInt_first_token h]
    exact hno
  · intro t ts v h hv hle
    apply hret
    rw [hiff, leadingInt_first_token h, leadingInt_of_tokenInt hv]
    rintro ⟨p, hp, hpos, _⟩
    rw [← Option.some.inj hp] at hpos
    omega
  · intro t ts v h hv hpos hmax hinv
    rw [hiff, leadingInt_first_token h, leadingInt_of_tokenInt hv] at hinv
    exact hinv ⟨v, rfl, hpos, hmax⟩
  · intro t ts h
    rw [hiff, leadingInt_first_token h]

/-- C10 as stated fails: the first token of `1-5 6` is `1-5`, which is not a
number, yet the load succeeds with `N = 1`, `A = [[-5]]`, `B = [[6]]`. -/
theorem loadMatrices_accepts_nonnumeric_first_token :
    tokens "1-5 6".toList = ["1-5".toList, "6".toList] ∧
    tokenInt "1-5".toList = none ∧
    loadMatrices smallMachine (some "1-5 6".toList) [] [] 0
      = ⟨LoadStatus.loaded, [[-5]], [[6]], 1⟩ ∧
    (loadMatrices smallMachine (some "1-5 6".toList) [] [] 0).returned = some true := by
  decide

theorem loadMatrices_invalid_dimension_witness :
    ((loadMatrices smallMachine (some " \n".toList) [[7]] [[8]] 1).status
        = LoadStatus.invalidN ∧
      (loadMatrices smallMachine (some " \n".toList) [[7]] [[8]] 1).returned = some false) ∧
    ((loadMatrices smallMachine (some "0x2 1 1".toList) [[7]] [[8]] 1).status
        = LoadStatus.invalidN ∧
      (loadMatrices smallMachine (some "0x2 1 1".toList) [[7]] [[8]] 1).returned
        = some false) ∧
    ((loadMatrices smallMachine (some "-3 1 1".toList) [[7]] [[8]] 1).status
        = LoadStatus.invalidN ∧
      (loadMatrices smallMachine (some "-3 1 1".toList) [[7]] [[8]] 1).returned
        = some false) ∧
    (loadMatrices smallMachine (some "1 5".toList) [[7]] [[8]] 1).status
      ≠ LoadStatus.invalidN ∧
    ((loadMatrices smallMachine (some "99999999999x 1".toList) [[7]] [[8]] 1).status
        = LoadStatus.invalidN ↔
      ¬ ∃ p, leadingInt "99999999999x".toList = some p ∧ 0 < p ∧ p ≤ INT_MAX) :=
  ⟨(loadMatrices_invalid_dimension smallMachine " \n".toList [[7]] [[8]] 1).1 (by decide),
   (loadMatrices_invalid_dimension smallMachine "0x2 1 1".toList [[7]] [[8]] 1).2.1
      "0x2".toList ["1".toList, "1".toList] (by decide) (by decide)
      (by
        rintro ⟨p, hp, hpos, _⟩
        have h0 : leadingInt "0x2".toList = some 0 := by decide
        rw [h0] at hp
        rw [← Option.some.inj hp] at hpos
        exact absurd hpos (by decide)),
   (loadMatrices_invalid_dimension smallMachine "-3 1 1".toList [[7]] [[8]] 1).2.2.1
      "-3".toList ["1".toList, "1".toList] (-3) (by decide) (by decide) (by decide),
   (loadMatrices_invalid_dimension smallMachine "1 5".toList [[7]] [[8]] 1).2.2.2.1
      "1".toList ["5".toList] 1 (by decide) (by decide) (by decide) (by decide),
   (loadMatrices_invalid_dimension smallMachine "99999999999x 1".toList [[7]] [[8]] 1).2.2.2.2
      "99999999999x".toList ["1".toList] (by decide)⟩

/-- The inner read loop on a stream of integer tokens of any width: when every
read of the segment succeeds, it consumed one token per column and each of these
tokens fits in 64 bits. -/
theorem readRow_any (i : Nat) :
    ∀ (m j0 : Nat) (M : Matrix) (s : List Char) (ts : List (List Char)) (vs : List Int),
      tokens s = ts → ts.map tokenInt = vs.map some →
      ∃ b M' s', readRow i (List.range' j0 m) M s = (b, M', s') ∧
        (b = true → m ≤ vs.length ∧ tokens s' = ts.drop m ∧
          ∀ v ∈ vs.take m, LLONG_MIN ≤ v ∧ v ≤ LLONG_MAX) := by
  intro m
  induction m with
  | zero =>
    intro j0 M s ts vs htok _
    exact ⟨true, M, s, by simp [readRow],
      fun _ => ⟨Nat.zero_le _, by simpa using htok, by simp⟩⟩
  | succ m ih =>
    intro j0 M s ts vs htok hmap
    cases vs with
    | nil =>
      have hts : ts = [] := by simpa using hmap
      subst hts
      have hd := tokens_eq_nil htok
      refine ⟨false, M, [], ?_, fun h => absurd h (by simp)⟩
      rw [List.range'_succ]
      simp only [readRow, extractInt, hd]
    | cons v vs' =>
      cases ts with
      | nil => simp at hmap
      | cons t ts' =>
        simp only [List.map_cons, List.cons.injEq] at hmap
        obtain ⟨ht, hmap'⟩ := hmap
        obtain ⟨rest, h1, _, _, h4, h5⟩ := tokens_cons htok
        have hext := extractInt_token LLONG_MIN LLONG_MAX h1 h4 ht
        rw [List.range'_succ]
        by_cases hin : LLONG_MIN ≤ v ∧ v ≤ LLONG_MAX
        · have hout : outcome LLONG_MIN LLONG_MAX v = Extracted.value v := by
            unfold outcome
            rw [if_neg (not_lt.mpr hin.1), if_neg (not_lt.mpr hin.2)]
          rw [hout] at hext
          obtain ⟨b, M', s', hread, hb⟩ := ih (j0 + 1) (putCell M i j0 v) rest ts' vs' h5 hmap'
          refine ⟨b, M', s', ?_, ?_⟩
          · simp only [readRow, hext]
            exact hread
          · intro hbt
            obtain ⟨hle, hdrop, hall⟩ := hb hbt
            refine ⟨by simpa using hle, by simpa using hdrop, ?_⟩
            intro x hx
            rw [List.take_succ_cons] at hx
            rcases List.mem_cons.mp hx with e | hx'
            · rw [e]; exact hin
            · exact hall x hx'
        · have hout : ∃ w, outcome LLONG_MIN LLONG_MAX v = Extracted.failed w := by
            unfold outcome
            by_cases hlo : v < LLONG_MIN
            · exact ⟨_, if_pos hlo⟩
            · have hhi : v > LLONG_MAX := by
                by_contra hnot
                exact hin ⟨not_lt.mp hlo, not_lt.mp hnot⟩
              exact ⟨_, by rw [if_neg hlo, if_pos hhi]⟩
          obtain ⟨w, hw⟩ := hout
          rw [hw] at hext
          refine ⟨false, M.set i ((M[i]?.getD []).set j0 w), rest, ?_,
            fun h => absurd h (by simp)⟩
          simp only [readRow, hext]

/-- The outer read loop on a stream of integer tokens of any width: when every
read succeeds, it consumed one token per cell and each of these tokens fits in 64
bits. -/
theorem readRows_any (n : Nat) :
    ∀ (m i0 : Nat) (M : Matrix) (s : List Char) (ts : List (List Char)) (vs : List Int),
      tokens s = ts → ts.map tokenInt = vs.map some →
      ∃ b M' s', readRows n (List.range' i0 m) M s = (b, M', s') ∧
        (b = true → m * n ≤ vs.length ∧ tokens s' = ts.drop (m * n) ∧
          ∀ v ∈ vs.take (m * n), LLONG_MIN ≤ v ∧ v ≤ LLONG_MAX) := by
  intro m
  induction m with
  | zero =>
    intro i0 M s ts vs htok _
    exact ⟨true, M, s, by simp [readRows],
      fun _ => ⟨by simp, by simpa using htok, by simp⟩⟩
  | succ m ih =>
    intro i0 M s ts vs htok hmap
    obtain ⟨b1, M1, s1, hread1, hb1⟩ := readRow_any i0 n 0 M s ts vs htok hmap
    rw [List.range'_succ]
    cases b1 with
    | false =>
      refine ⟨false, M1, s1, ?_, fun h => absurd h (by simp)⟩
      simp only [readRows, List.range_eq_range', hread1]
    | true =>
      obtain ⟨hle1, htok1, hall1⟩ := hb1 rfl
      obtain ⟨b2, M2, s2, hread2, hb2⟩ := ih (i0 + 1) M1 s1 (ts.drop n) (vs.drop n) htok1
        (by rw [List.map_drop, List.map_drop, hmap])
      refine ⟨b2, M2, s2, ?_, ?_⟩
      · simp only [readRows, List.range_eq_range', hread1]
        exact hread2
      · intro hbt
        obtain ⟨hle2, hdrop, hall2⟩ := hb2 hbt
        rw [List.length_drop] at hle2
        refine ⟨by rw [Nat.succ_mul]; omega, ?_, ?_⟩
        · rw [hdrop, List.drop_drop, Nat.succ_mul]
          congr 1
          omega
        · intro x hx
          have e : (m + 1) * n = n + m * n := by rw [Nat.succ_mul]; omega
          rw [e, List.take_add] at hx
          rcases List.mem_append.mp hx with h | h
          · exact hall1 x h
          · exact hall2 x h

/-- The dimension was read and the matrices allocated: the load goes on with the
two read loops. -/
theorem loadMatrices_read_loops (alloc : Nat → Bool) (src s1 : List Char) (n : Nat)
    (A0 B0 : Matrix) (N0 : Int) (hpos : 0 < n) (halloc : alloc n = true)
    (hext : extractInt INT_MIN INT_MAX src = (Extracted.value (n : Int), s1)) :
    loadMatrices alloc (some src) A0 B0 N0 =
      match readRows n (List.range' 0 n) (List.replicate n (List.replicate n 0)) s1 with
      | (false, A1, _) =>
        ⟨LoadStatus.incompleteA, A1, List.replicate n (List.replicate n 0), (n : Int)⟩
      | (true, A1, s2) =>
        match readRows n (List.range' 0 n) (List.replicate n (List.replicate n 0)) s2 with
        | (false, B1, _) => ⟨LoadStatus.incompleteB, A1, B1, (n : Int)⟩
        | (true, B1, _) => ⟨LoadStatus.loaded, A1, B1, (n : Int)⟩ := by
  unfold loadMatrices
  simp only [hext]
  rw [if_neg (by omega)]
  simp only [Int.toNat_ofNat]
  rw [if_pos halloc]
  simp only [List.range_eq_range']

/-- A truncated source whose dimension was read and whose matrices were
allocated: the failure names `B` when `N²` integers follow and the first `N²` of
them fit in 64 bits, and names `A` otherwise. -/
theorem loadMatrices_truncated_status (alloc : Nat → Bool) (src tN : List Char)
    (cellToks : List (List Char)) (n : Nat) (vals : List Int) (A0 B0 : Matrix) (N0 : Int)
    (htok : tokens src = tN :: cellToks)
    (hN : tokenInt tN = some (n : Int)) (hpos : 0 < n) (hmax : (n : Int) ≤ INT_MAX)
    (halloc : alloc n = true)
    (hcells : cellToks.map tokenInt = vals.map some)
    (hlen : vals.length < 2 * (n * n)) :
    (loadMatrices alloc (some src) A0 B0 N0).status =
      if n * n ≤ vals.length ∧ ∀ v ∈ vals.take (n * n), LLONG_MIN ≤ v ∧ v ≤ LLONG_MAX
      then LoadStatus.incompleteB else LoadStatus.incompleteA := by
  have hmin : INT_MIN ≤ (n : Int) := by unfold INT_MIN; omega
  obtain ⟨s1, hext, htok1⟩ := extractInt_next INT_MIN INT_MAX htok hN hmin hmax
  rw [loadMatrices_read_loops alloc src s1 n A0 B0 N0 hpos halloc hext]
  by_cases hP : n * n ≤ vals.length ∧ ∀ v ∈ vals.take (n * n), LLONG_MIN ≤ v ∧ v ≤ LLONG_MAX
  · rw [if_pos hP]
    obtain ⟨A1, s2, hreadA, htok2, _, _⟩ := readRows_spec n n 0
      (List.replicate n (List.replicate n 0)) s1
      (cellToks.take (n * n)) (vals.take (n * n)) (cellToks.drop (n * n))
      (isSquare_replicate n) (by omega)
      (by rw [List.take_append_drop]; exact htok1)
      (by rw [List.map_take, List.map_take, hcells])
      (by rw [List.length_take]; omega)
      hP.2
    obtain ⟨bB, B1, s3, hreadB, hbB⟩ := readRows_any n n 0
      (List.replicate n (List.replicate n 0)) s2 (cellToks.drop (n * n))
      (vals.drop (n * n)) htok2 (by rw [List.map_drop, List.map_drop, hcells])
    simp only [hreadA, hreadB]
    cases bB with
    | false => rfl
    | true =>
      exfalso
      have hleB := (hbB rfl).1
      rw [List.length_drop] at hleB
      omega
  · rw [if_neg hP]
    obtain ⟨bA, A1, s2, hreadA, hbA⟩ := readRows_any n n 0
      (List.replicate n (List.replicate n 0)) s1 cellToks vals htok1 hcells
    simp only [hreadA]
    cases bA with
    | false => rfl
    | true =>
      obtain ⟨hle, _, hall⟩ := hbA rfl
      exact absurd ⟨hle, hall⟩ hP

/-- C11 (amended): for every source whose first token is a positive integer `N`
followed by `m < 2·N²` integer tokens and nothing else: if `N` is beyond the `int`
range, or the machine can allocate the two `N × N` matrices, `loadMatrices`
returns false. If `N` is within the `int` range and the matrices can be
allocated, the failure names matrix `A` as incomplete exactly when `m < N²` or one
of the first `N²` integers does not fit in signed 64 bits, and names matrix `B`
exactly when `N² ≤ m < 2·N²` and the first `N²` integers fit; so, when `m < N²` or
the first `N²` integers fit in 64 bits, it names `A` exactly when `m < N²` and `B`
exactly when `N² ≤ m < 2·N²`. If `N` is within the `int` range and the matrices
cannot be allocated, the call does not return. -/
theorem loadMatrices_truncated (alloc : Nat → Bool) (src tN : List Char)
    (cellToks : List (List Char)) (n : Nat) (vals : List Int) (A0 B0 : Matrix) (N0 : Int)
    (htok : tokens src = tN :: cellToks)
    (hN : tokenInt tN = some (n : Int)) (hpos : 0 < n)
    (hcells : cellToks.map tokenInt = vals.map some)
    (hlen : vals.length < 2 * (n * n)) :
    (INT_MAX < (n : Int) ∨ alloc n = true →
      (loadMatrices alloc (some src) A0 B0 N0).returned = some false) ∧
    ((n : Int) ≤ INT_MAX → alloc n = true →
      ((loadMatrices alloc (some src) A0 B0 N0).status = LoadStatus.incompleteA ↔
        (vals.length < n * n ∨
          ∃ v ∈ vals.take (n * n), ¬ (LLONG_MIN ≤ v ∧ v ≤ LLONG_MAX))) ∧
      ((loadMatrices alloc (some src) A0 B0 N0).status = LoadStatus.incompleteB ↔
        (n * n ≤ vals.length ∧ ∀ v ∈ vals.take (n * n), LLONG_MIN ≤ v ∧ v ≤ LLONG_MAX))) ∧
    ((n : Int) ≤ INT_MAX → alloc n = true →
      (vals.length < n * n ∨ ∀ v ∈ vals.take (n * n), LLONG_MIN ≤ v ∧ v ≤ LLONG_MAX) →
      ((loadMatrices alloc (some src) A0 B0 N0).status = LoadStatus.incompleteA ↔
        vals.length < n * n) ∧
      ((loadMatrices alloc (some src) A0 B0 N0).status = LoadStatus.incompleteB ↔
        n * n ≤ vals.length)) ∧
    ((n : Int) ≤ INT_MAX → alloc n = false →
      (loadMatrices alloc (some src) A0 B0 N0).returned = none) := by
  have hst := loadMatrices_truncated_status alloc src tN cellToks n vals A0 B0 N0 htok hN hpos
  refine ⟨?_, ?_, ?_, ?_⟩
  · intro h
    by_cases hmax : (n : Int) ≤ INT_MAX
    · have halloc : alloc n = true := by
        rcases h with h | h
        · omega
        · exact h
      have h1 := hst hmax halloc hcells hlen
      unfold LoadResult.returned
      rw [h1]
      split_ifs <;> rfl
    · rw [loadMatrices_dimension_too_big alloc A0 B0 N0 htok hN (by omega)]
      rfl
  · intro hmax halloc
    have h1 := hst hmax halloc hcells hlen
    by_cases hP : n * n ≤ vals.length ∧
        ∀ v ∈ vals.take (n * n), LLONG_MIN ≤ v ∧ v ≤ LLONG_MAX
    · rw [if_pos hP] at h1
      rw [h1]
      refine ⟨⟨fun h => absurd h (by decide), ?_⟩, ⟨fun _ => hP, fun _ => rfl⟩⟩
      rintro (hlt | ⟨v, hv, hbad⟩)
      · omega
      · exact absurd (hP.2 v hv) hbad
    · rw [if_neg hP] at h1
      rw [h1]
      refine ⟨⟨fun _ => ?_, fun _ => rfl⟩, ⟨fun h => absurd h (by decide), fun h => absurd h hP⟩⟩
      by_cases hlt : vals.length < n * n
      · exact Or.inl hlt
      · right
        by_contra hno
        apply hP
        refine ⟨by omega, fun v hv => ?_⟩
        by_contra hbad
        exact hno ⟨v, hv, hbad⟩
  · intro hmax halloc hfit
    have h1 := hst hmax halloc hcells hlen
    by_cases hP : n * n ≤ vals.length ∧
        ∀ v ∈ vals.take (n * n), LLONG_MIN ≤ v ∧ v ≤ LLONG_MAX
    · rw [if_pos hP] at h1
      rw [h1]
      exact ⟨⟨fun h => absurd h (by decide), fun h => by omega⟩, ⟨fun _ => hP.1, fun _ => rfl⟩⟩
    · rw [if_neg hP] at h1
      rw [h1]
      have hlt : vals.length < n * n := by
        rcases hfit with h | h
        · exact h
        · by_contra hge
          exact hP ⟨by omega, h⟩
      exact ⟨⟨fun _ => hlt, fun _ => rfl⟩, ⟨fun h => absurd h (by decide), fun h => by omega⟩⟩
  · intro hmax halloc
    rw [loadMatrices_alloc_fails alloc A0 B0 N0 htok hN hpos hmax halloc]
    rfl

theorem loadMatrices_truncated_witness :
    (loadMatrices smallMachine (some "2 1 2 3 4 5".toList) [] [] 0).returned = some false ∧
    (((loadMatrices smallMachine (some "2 1 2 3 4 5".toList) [] [] 0).status
          = LoadStatus.incompleteA ↔
        (([1, 2, 3, 4, 5] : List Int).length < 2 * 2 ∨
          ∃ v ∈ ([1, 2, 3, 4, 5] : List Int).take (2 * 2),
            ¬ (LLONG_MIN ≤ v ∧ v ≤ LLONG_MAX))) ∧
      ((loadMatrices smallMachine (some "2 1 2 3 4 5".toList) [] [] 0).status
          = LoadStatus.incompleteB ↔
        (2 * 2 ≤ ([1, 2, 3, 4, 5] : List Int).length ∧
          ∀ v ∈ ([1, 2, 3, 4, 5] : List Int).take (2 * 2),
            LLONG_MIN ≤ v ∧ v ≤ LLONG_MAX))) ∧
    (((loadMatrices smallMachine (some "2 1 2 3 4 5".toList) [] [] 0).status
          = LoadStatus.incompleteA ↔ ([1, 2, 3, 4, 5] : List Int).length < 2 * 2) ∧
      ((loadMatrices smallMachine (some "2 1 2 3 4 5".toList) [] [] 0).status
          = LoadStatus.incompleteB ↔ 2 * 2 ≤ ([1, 2, 3, 4, 5] : List Int).length)) ∧
    (loadMatrices (fun _ => false) (some "2 1 2 3 4 5".toList) [] [] 0).returned = none :=
  ⟨(loadMatrices_truncated smallMachine "2 1 2 3 4 5".toList "2".toList
      ["1".toList, "2".toList, "3".toList, "4".toList, "5".toList] 2 [1, 2, 3, 4, 5] [] [] 0
      (by decide) (by decide) (by decide) (by decide) (by decide)).1 (Or.inr (by decide)),
   (loadMatrices_truncated smallMachine "2 1 2 3 4 5".toList "2".toList
      ["1".toList, "2".toList, "3".toList, "4".toList, "5".toList] 2 [1, 2, 3, 4, 5] [] [] 0
      (by decide) (by decide) (by decide) (by decide) (by decide)).2.1 (by decide) (by decide),
   (loadMatrices_truncated smallMachine "2 1 2 3 4 5".toList "2".toList
      ["1".toList, "2".toList, "3".toList, "4".toList, "5".toList] 2 [1, 2, 3, 4, 5] [] [] 0
      (by decide) (by decide) (by decide) (by decide) (by decide)).2.2.1 (by decide) (by decide)
      (Or.inr (by decide)),
   (loadMatrices_truncated (fun _ => false) "2 1 2 3 4 5".toList "2".toList
      ["1".toList, "2".toList, "3".toList, "4".toList, "5".toList] 2 [1, 2, 3, 4, 5] [] [] 0
      (by decide) (by decide) (by decide) (by decide) (by decide)).2.2.2 (by decide) rfl⟩

/-- C11 as stated fails in three ways. The source `2147483648` is a positive
integer `N` followed by `m = 0 < N²` integer tokens, and the load ends at the
dimension check without naming `A`. The source `1 99999999999999999999` has
`N = 1` and `m = 1` integer token, so `N² ≤ m < 2·N²`, and the failure names `A`,
not `B`: the token does not fit in 64 bits. The source `2147483647` has `N` within
the `int` range and `m = 0`; on a machine that cannot hold matrices of that
dimension the allocation of line 25 throws, and the call neither returns false
nor names a matrix. -/
theorem loadMatrices_truncated_misnamed :
    (tokens "2147483648".toList = ["2147483648".toList] ∧
      tokenInt "2147483648".toList = some 2147483648 ∧
      (loadMatrices smallMachine (some "2147483648".toList) [] [] 0).status
        = LoadStatus.invalidN) ∧
    (tokens "1 99999999999999999999".toList = ["1".toList, "99999999999999999999".toList] ∧
      tokenInt "1".toList = some 1 ∧
      tokenInt "99999999999999999999".toList = some 99999999999999999999 ∧
      (loadMatrices smallMachine (some "1 99999999999999999999".toList) [] [] 0).status
        = LoadStatus.incompleteA) ∧
    (tokens "2147483647".toList = ["2147483647".toList] ∧
      tokenInt "2147483647".toList = some 2147483647 ∧
      (loadMatrices smallMachine (some "2147483647".toList) [] [] 0).status
        = LoadStatus.allocFailed ∧
      (loadMatrices smallMachine (some "2147483647".toList) [] [] 0).returned = none) := by
  decide

/-! ## Failed loads and reloads -/

/-- The allocator is consulted only at the dimension that was read: a machine
that agrees with another one there (or is never asked) gives the same result. -/
theorem loadMatrices_alloc_agree (alloc alloc' : Nat → Bool) (file : Option (List Char))
    (A B : Matrix) (N : Int)
    (h : ((loadMatrices alloc' file A B N).status = LoadStatus.openError ∨
          (loadMatrices alloc' file A B N).status = LoadStatus.invalidN) ∨
        alloc (loadMatrices alloc' file A B N).N.toNat
          = alloc' (loadMatrices alloc' file A B N).N.toNat) :
    loadMatrices alloc file A B N = loadMatrices alloc' file A B N := by
  cases file with
  | none => rfl
  | some src =>
    unfold loadMatrices at h ⊢
    rcases hx : extractInt INT_MIN INT_MAX src with ⟨e, s1⟩
    cases e with
    | noInput => simp only [hx]
    | failed v => simp only [hx]
    | value v =>
      simp only [hx] at h ⊢
      by_cases hv : v ≤ 0
      · rw [if_pos hv, if_pos hv]
      · rw [if_neg hv] at h
        rw [if_neg hv, if_neg hv]
        have hsame : alloc v.toNat = alloc' v.toNat := by
          by_cases ha : alloc' v.toNat = true
          · rw [if_pos ha] at h
            rcases hA : readRows v.toNat (List.range v.toNat)
              (List.replicate v.toNat (List.replicate v.toNat 0)) s1 with ⟨bA, A1, s2⟩
            rw [hA] at h
            cases bA with
            | false => simpa using h
            | true =>
              simp only at h
              rcases hB : readRows v.toNat (List.range v.toNat)
                (List.replicate v.toNat (List.replicate v.toNat 0)) s2 with ⟨bB, B1, s3⟩
              rw [hB] at h
              cases bB with
              | false => simpa using h
              | true => simpa using h
          · rw [if_neg ha] at h
            simpa using h
        rw [hsame]

/-- A result evaluated on the machine `smallMachine` holds on every machine that
agrees with it at the dimension read. -/
theorem loadMatrices_of_eval {alloc : Nat → Bool} {file : Option (List Char)} {A B : Matrix}
    {N : Int} {r : LoadResult} (e : loadMatrices smallMachine file A B N = r)
    (h : (r.status = LoadStatus.openError ∨ r.status = LoadStatus.invalidN) ∨
        alloc r.N.toNat = smallMachine r.N.toNat) :
    loadMatrices alloc file A B N = r := by
  subst e
  exact loadMatrices_alloc_agree alloc smallMachine file A B N h

/-- C12 (the code at failing inputs): with the caller holding
`A = [[1,2],[3,4]]`, `B = [[5,6],[7,8]]`, `N = 2`, a load that fails does not leave
these as they were. On the truncated source `3 1 2`, on every machine that can
allocate `3 × 3` matrices, the call returns false with `N = 3`, `A` a partly
filled `3 × 3` matrix and `B` a `3 × 3` zero matrix; on `1 9`, on every machine
that can allocate `1 × 1` matrices, it returns false with `N = 1`, `A = [[9]]`,
`B = [[0]]`; on the source `x` it returns false with `N = 0` beside the old
`2 × 2` matrices; on `2147483648` it returns false with `N = INT_MAX` beside the
old matrices. Only an unopenable or blank source leaves all three untouched. -/
theorem loadMatrices_failure_overwrites_caller_state (alloc : Nat → Bool) :
    (alloc 3 = true →
      loadMatrices alloc (some "3 1 2".toList) [[1, 2], [3, 4]] [[5, 6], [7, 8]] 2
        = ⟨LoadStatus.incompleteA, [[1, 2, 0], [0, 0, 0], [0, 0, 0]],
            [[0, 0, 0], [0, 0, 0], [0, 0, 0]], 3⟩) ∧
    (alloc 1 = true →
      loadMatrices alloc (some "1 9".toList) [[1, 2], [3, 4]] [[5, 6], [7, 8]] 2
        = ⟨LoadStatus.incompleteB, [[9]], [[0]], 1⟩) ∧
    loadMatrices alloc (some "x".toList) [[1, 2], [3, 4]] [[5, 6], [7, 8]] 2
      = ⟨LoadStatus.invalidN, [[1, 2], [3, 4]], [[5, 6], [7, 8]], 0⟩ ∧
    loadMatrices alloc (some "2147483648".toList) [[1, 2], [3, 4]] [[5, 6], [7, 8]] 2
      = ⟨LoadStatus.invalidN, [[1, 2], [3, 4]], [[5, 6], [7, 8]], INT_MAX⟩ ∧
    loadMatrices alloc none [[1, 2], [3, 4]] [[5, 6], [7, 8]] 2
      = ⟨LoadStatus.openError, [[1, 2], [3, 4]], [[5, 6], [7, 8]], 2⟩ ∧
    loadMatrices alloc (some " \n".toList) [[1, 2], [3, 4]] [[5, 6], [7, 8]] 2
      = ⟨LoadStatus.invalidN, [[1, 2], [3, 4]], [[5, 6], [7, 8]], 2⟩ := by
  refine ⟨fun h3 => ?_, fun h1 => ?_,
    loadMatrices_of_eval (by decide) (Or.inl (Or.inr rfl)),
    loadMatrices_of_eval (by decide) (Or.inl (Or.inr rfl)),
    loadMatrices_of_eval (by decide) (Or.inl (Or.inl rfl)),
    loadMatrices_of_eval (by decide) (Or.inl (Or.inr rfl))⟩
  · have e3 : alloc (3 : Int).toNat = smallMachine (3 : Int).toNat := by
      show alloc 3 = smallMachine 3
      rw [h3]; rfl
    exact loadMatrices_of_eval (by decide) (Or.inr e3)
  · have e1 : alloc (1 : Int).toNat = smallMachine (1 : Int).toNat := by
      show alloc 1 = smallMachine 1
      rw [h1]; rfl
    exact loadMatrices_of_eval (by decide) (Or.inr e1)

theorem loadMatrices_failure_overwrites_caller_state_witness :
    (smallMachine 3 = true ∧ smallMachine 1 = true) ∧
    loadMatrices smallMachine (some "3 1 2".toList) [[1, 2], [3, 4]] [[5, 6], [7, 8]] 2
      = ⟨LoadStatus.incompleteA, [[1, 2, 0], [0, 0, 0], [0, 0, 0]],
          [[0, 0, 0], [0, 0, 0], [0, 0, 0]], 3⟩ ∧
    loadMatrices smallMachine (some "1 9".toList) [[1, 2], [3, 4]] [[5, 6], [7, 8]] 2
      = ⟨LoadStatus.incompleteB, [[9]], [[0]], 1⟩ ∧
    loadMatrices smallMachine (some "x".toList) [[1, 2], [3, 4]] [[5, 6], [7, 8]] 2
      = ⟨LoadStatus.invalidN, [[1, 2], [3, 4]], [[5, 6], [7, 8]], 0⟩ ∧
    loadMatrices smallMachine (some "2147483648".toList) [[1, 2], [3, 4]] [[5, 6], [7, 8]] 2
      = ⟨LoadStatus.invalidN, [[1, 2], [3, 4]], [[5, 6], [7, 8]], INT_MAX⟩ ∧
    loadMatrices smallMachine none [[1, 2], [3, 4]] [[5, 6], [7, 8]] 2
      = ⟨LoadStatus.openError, [[1, 2], [3, 4]], [[5, 6], [7, 8]], 2⟩ ∧
    loadMatrices smallMachine (some " \n".toList) [[1, 2], [3, 4]] [[5, 6], [7, 8]] 2
      = ⟨LoadStatus.invalidN, [[1, 2], [3, 4]], [[5, 6], [7, 8]], 2⟩ :=
  ⟨⟨by decide, by decide⟩,
    (loadMatrices_failure_overwrites_caller_state smallMachine).1 (by decide),
    (loadMatrices_failure_overwrites_caller_state smallMachine).2.1 (by decide),
    (loadMatrices_failure_overwrites_caller_state smallMachine).2.2⟩

/-- A load that succeeds does not read the caller's variables. -/
theorem loadMatrices_ok_independent (alloc : Nat → Bool) (src : List Char)
    (A1 B1 A2 B2 : Matrix) (N1 N2 : Int)
    (h : (loadMatrices alloc (some src) A1 B1 N1).ok = true) :
    loadMatrices alloc (some src) A2 B2 N2 = loadMatrices alloc (some src) A1 B1 N1 := by
  unfold loadMatrices at h ⊢
  rcases hx : extractInt INT_MIN INT_MAX src with ⟨e, s1⟩
  cases e with
  | noInput => simp [hx, LoadResult.ok] at h
  | failed v => simp [hx, LoadResult.ok] at h
  | value v =>
    simp only [hx] at h ⊢
    by_cases hv : v ≤ 0
    · rw [if_pos hv] at h
      simp [LoadResult.ok] at h
    · rw [if_neg hv] at h
      rw [if_neg hv, if_neg hv]
      by_cases ha : alloc v.toNat = true
      · rw [if_pos ha, if_pos ha]
      · rw [if_neg ha] at h
        simp [LoadResult.ok] at h

/-- C13: the result of a successful load depends only on the source. For every
machine, every source and any two prior states of `A`, `B`, `N`, if the load
succeeds from the first state, the load from the second state returns exactly the
same result; and for a source made of a dimension, for which the matrices can be
allocated, and its `2·N²` cell values both loads return the file's contents. -/
theorem reload_depends_only_on_source (alloc : Nat → Bool) (src : List Char)
    (A1 B1 A2 B2 : Matrix) (N1 N2 : Int) :
    ((loadMatrices alloc (some src) A1 B1 N1).ok = true →
      loadMatrices alloc (some src) A2 B2 N2 = loadMatrices alloc (some src) A1 B1 N1) ∧
    (∀ (tN : List Char) (cellToks extra : List (List Char)) (n : Nat) (vals : List Int),
      tokens src = tN :: (cellToks ++ extra) → tokenInt tN = some (n : Int) → 0 < n →
      (n : Int) ≤ INT_MAX → alloc n = true → cellToks.map tokenInt = vals.map some →
      vals.length = 2 * (n * n) → (∀ v ∈ vals, LLONG_MIN ≤ v ∧ v ≤ LLONG_MAX) →
      ∃ A B, loadMatrices alloc (some src) A1 B1 N1 = ⟨LoadStatus.loaded, A, B, (n : Int)⟩ ∧
        loadMatrices alloc (some src) A2 B2 N2 = ⟨LoadStatus.loaded, A, B, (n : Int)⟩ ∧
        ∀ i j, i < n → j < n →
          vals[i * n + j]? = some (cell A i j) ∧
          vals[n * n + (i * n + j)]? = some (cell B i j)) := by
  refine ⟨loadMatrices_ok_independent alloc src A1 B1 A2 B2 N1 N2, ?_⟩
  intro tN cellToks extra n vals htok hN hpos hmax halloc hcells hlen hrange
  obtain ⟨A, B, hload, hok, _, _, hcell⟩ := loadMatrices_contents alloc src tN cellToks extra n
    vals A1 B1 N1 htok hN hpos hmax halloc hcells hlen hrange
  refine ⟨A, B, hload, ?_, hcell⟩
  rw [loadMatrices_ok_independent alloc src A1 B1 A2 B2 N1 N2 hok, hload]

theorem reload_depends_only_on_source_witness :
    ((loadMatrices smallMachine (some "1 5 6".toList) [[1, 2], [3, 4]] [[5, 6], [7, 8]] 2).ok
        = true →
      loadMatrices smallMachine (some "1 5 6".toList) [] [] 0
        = loadMatrices smallMachine (some "1 5 6".toList) [[1, 2], [3, 4]] [[5, 6], [7, 8]] 2) ∧
    (∃ A B, loadMatrices smallMachine (some "1 5 6".toList) [[1, 2], [3, 4]] [[5, 6], [7, 8]] 2
        = ⟨LoadStatus.loaded, A, B, ((1 : Nat) : Int)⟩ ∧
      loadMatrices smallMachine (some "1 5 6".toList) [] [] 0
        = ⟨LoadStatus.loaded, A, B, ((1 : Nat) : Int)⟩ ∧
      ∀ i j, i < 1 → j < 1 →
        ([5, 6] : List Int)[i * 1 + j]? = some (cell A i j) ∧
        ([5, 6] : List Int)[1 * 1 + (i * 1 + j)]? = some (cell B i j)) :=
  ⟨(reload_depends_only_on_source smallMachine "1 5 6".toList [[1, 2], [3, 4]] [[5, 6], [7, 8]]
      [] [] 2 0).1,
   (reload_depends_only_on_source smallMachine "1 5 6".toList [[1, 2], [3, 4]] [[5, 6], [7, 8]]
      [] [] 2 0).2
     "1".toList ["5".toList, "6".toList] [] 1 [5, 6]
     (by decide) (by decide) (by decide) (by decide) (by decide) (by decide) (by decide)
     (by decide)⟩

/-! ## Algebraic relations -/

/-- Two `N × N` matrices with the same cells are the same matrix. -/
theorem matrix_ext {M M' : Matrix} {n : Nat} (h : IsSquare M n) (h' : IsSquare M' n)
    (hc : ∀ i j, i < n → j < n → cell M i j = cell M' i j) : M = M' := by
  apply List.ext_getElem?
  intro i
  by_cases hi : i < n
  · obtain ⟨row, hrow, hlen⟩ := h.row hi
    obtain ⟨row', hrow', hlen'⟩ := h'.row hi
    rw [hrow, hrow']
    congr 1
    apply List.ext_getElem?
    intro j
    by_cases hj : j < n
    · have hcell := hc i j hi hj
      unfold cell at hcell
      rw [hrow, hrow'] at hcell
      simp only [Option.getD_some] at hcell
      have hj1 : j < row.length := by omega
      have hj2 : j < row'.length := by omega
      rw [List.getElem?_eq_getElem hj1, List.getElem?_eq_getElem hj2] at hcell ⊢
      simpa using hcell
    · rw [List.getElem?_eq_none (by omega), List.getElem?_eq_none (by omega)]
  · rw [List.getElem?_eq_none (by rw [h.1]; omega), List.getElem?_eq_none (by rw [h'.1]; omega)]

theorem wrap64_eq_of_dvd {x y : Int} (h : (18446744073709551616 : Int) ∣ x - y) :
    wrap64 x = wrap64 y := by
  unfold wrap64
  omega

theorem wrap64_sub_dvd (x : Int) : (18446744073709551616 : Int) ∣ wrap64 x - x := by
  unfold wrap64
  omega

/-- Wrapping the summands of a sum does not change the wrapped sum. -/
theorem wrap64_sum_congr (n : Nat) (f g : Nat → Int)
    (h : ∀ k, k < n → (18446744073709551616 : Int) ∣ f k - g k) :
    wrap64 (∑ k ∈ Finset.range n, f k) = wrap64 (∑ k ∈ Finset.range n, g k) := by
  apply wrap64_eq_of_dvd
  rw [← Finset.sum_sub_distrib]
  exact Finset.dvd_sum (fun k hk => h k (Finset.mem_range.mp hk))

/-- C14: for every `N ≥ 0` and all `N × N` matrices `A`, `B`, `C`, all five calls
return and `multiply(A, add(B, C, N), N)` is the same matrix as
`add(multiply(A, B, N), multiply(A, C, N), N)` under 64-bit wraparound
arithmetic, for matrices of any size. -/
theorem multiply_add_distrib (n : Nat) (A B C : Matrix) (hA : IsSquare A n)
    (hB : IsSquare B n) (hC : IsSquare C n) :
    ∃ BC AB AC R, add B C (n : Int) = some BC ∧ multiply A B (n : Int) = some AB ∧
      multiply A C (n : Int) = some AC ∧ multiply A BC (n : Int) = some R ∧
      add AB AC (n : Int) = some R ∧ IsSquare R n := by
  obtain ⟨BC, hBC, hsqBC, hcBC⟩ := add_loop n B C hB hC
  obtain ⟨AB, hAB, hsqAB, hcAB⟩ := multiply_loop n A B hA hB
  obtain ⟨AC, hAC, hsqAC, hcAC⟩ := multiply_loop n A C hA hC
  obtain ⟨L, hL, hsqL, hcL⟩ := multiply_loop n A BC hA hsqBC
  obtain ⟨R, hR, hsqR, hcR⟩ := add_loop n AB AC hsqAB hsqAC
  have hLR : L = R := by
    apply matrix_ext hsqL hsqR
    intro i j hi hj
    rw [hcL i j hi hj, hcR i j hi hj, hcAB i j hi hj, hcAC i j hi hj, dotWrap_eq_sum,
      dotWrap_eq_sum, dotWrap_eq_sum, wrap64_add_left, wrap64_add_right,
      ← Finset.sum_add_distrib]
    apply wrap64_sum_congr
    intro k hk
    rw [hcBC k j hk hj]
    have h1 := wrap64_sub_dvd (cell B k j + cell C k j)
    have h2 : cell A i k * wrap64 (cell B k j + cell C k j)
        - (cell A i k * cell B k j + cell A i k * cell C k j)
        = cell A i k * (wrap64 (cell B k j + cell C k j) - (cell B k j + cell C k j)) := by
      ring
    rw [h2]
    exact Dvd.dvd.mul_left h1 _
  exact ⟨BC, AB, AC, R, hBC, hAB, hAC, hLR ▸ hL, hR, hsqR⟩

theorem multiply_add_distrib_witness :
    ∃ BC AB AC R, add [[5, 6], [7, 8]] [[1, 0], [0, 1]] ((2 : Nat) : Int) = some BC ∧
      multiply [[1, 2], [3, 4]] [[5, 6], [7, 8]] ((2 : Nat) : Int) = some AB ∧
      multiply [[1, 2], [3, 4]] [[1, 0], [0, 1]] ((2 : Nat) : Int) = some AC ∧
      multiply [[1, 2], [3, 4]] BC ((2 : Nat) : Int) = some R ∧
      add AB AC ((2 : Nat) : Int) = some R ∧ IsSquare R 2 :=
  multiply_add_distrib 2 [[1, 2], [3, 4]] [[5, 6], [7, 8]] [[1, 0], [0, 1]]
    (by decide) (by decide) (by decide)

/-- C15: for every `N × N` matrix `M` and every `i` in `[0, N)`,
`swapRows(M, N, i, i)` returns true and leaves `M` exactly unchanged. -/
theorem swapRows_same_row (n : Nat) (M : Matrix) (i : Int) (hM : IsSquare M n)
    (hi : 0 ≤ i ∧ i < (n : Int)) :
    swapRows M (n : Int) i i = some (true, M) ∧ IsSquare M n := by
  have hguard : ¬ (i < 0 ∨ i < 0 ∨ i ≥ (n : Int) ∨ i ≥ (n : Int)) := by omega
  refine ⟨?_, hM⟩
  unfold swapRows
  rw [if_neg hguard, if_pos rfl]

theorem swapRows_same_row_witness :
    swapRows [[1, 2], [3, 4]] ((2 : Nat) : Int) 1 1 = some (true, [[1, 2], [3, 4]]) ∧
      IsSquare [[1, 2], [3, 4]] 2 :=
  swapRows_same_row 2 [[1, 2], [3, 4]] 1 (by decide) (by decide)

/-- C16: for every `N × N` matrix `M` and all `i ≠ j` in `[0, N)`,
`swapRows(M, N, i, j)` followed by `swapRows(·, N, j, i)` returns true both times
and restores `M` exactly. -/
theorem swapRows_twice (n : Nat) (M : Matrix) (i j : Int) (hM : IsSquare M n)
    (hi : 0 ≤ i ∧ i < (n : Int)) (hj : 0 ≤ j ∧ j < (n : Int)) (hij : i ≠ j) :
    ∃ M1, swapRows M (n : Int) i j = some (true, M1) ∧
      swapRows M1 (n : Int) j i = some (true, M) := by
  have hg1 : ¬ (i < 0 ∨ j < 0 ∨ i ≥ (n : Int) ∨ j ≥ (n : Int)) := by omega
  have hg2 : ¬ (j < 0 ∨ i < 0 ∨ j ≥ (n : Int) ∨ i ≥ (n : Int)) := by omega
  have hni : i.toNat < n := by omega
  have hnj : j.toNat < n := by omega
  have hne : i.toNat ≠ j.toNat := by omega
  obtain ⟨a, ha, _⟩ := hM.row hni
  obtain ⟨b, hb, _⟩ := hM.row hnj
  have hli : i.toNat < M.length := by rw [hM.1]; exact hni
  have hlj : j.toNat < M.length := by rw [hM.1]; exact hnj
  have h1 : swapRows M (n : Int) i j = some (true, (M.set i.toNat b).set j.toNat a) := by
    unfold swapRows
    rw [if_neg hg1, if_neg hij]
    simp [ha, hb]
  have hj1 : ((M.set i.toNat b).set j.toNat a)[j.toNat]? = some a := by
    rw [List.getElem?_set, if_pos rfl, if_pos (by simpa using hlj)]
  have hi1 : ((M.set i.toNat b).set j.toNat a)[i.toNat]? = some b := by
    rw [List.getElem?_set_ne (Ne.symm hne), List.getElem?_set, if_pos rfl, if_pos hli]
  refine ⟨_, h1, ?_⟩
  unfold swapRows
  rw [if_neg hg2, if_neg (Ne.symm hij)]
  simp only [hj1, hi1]
  congr 2
  apply List.ext_getElem?
  intro k
  by_cases hki : k = i.toNat
  · subst hki
    rw [List.getElem?_set, if_pos rfl, if_pos (by simpa using hli), ha]
  · rw [List.getElem?_set_ne (Ne.symm hki)]
    by_cases hkj : k = j.toNat
    · subst hkj
      rw [List.getElem?_set, if_pos rfl, if_pos (by simpa using hlj), hb]
    · rw [List.getElem?_set_ne (Ne.symm hkj), List.getElem?_set_ne (Ne.symm hkj),
        List.getElem?_set_ne (Ne.symm hki)]

theorem swapRows_twice_witness :
    ∃ M1, swapRows [[1, 2], [3, 4]] ((2 : Nat) : Int) 0 1 = some (true, M1) ∧
      swapRows M1 ((2 : Nat) : Int) 1 0 = some (true, [[1, 2], [3, 4]]) :=
  swapRows_twice 2 [[1, 2], [3, 4]] 0 1 (by decide) (by decide) (by decide) (by decide)

/-! ## Diagonal sums together -/

theorem diagonalCells_eq_union (n : Nat) :
    diagonalCells n = (Finset.range n).image (fun i => (i, i))
      ∪ (Finset.range n).image (fun i => (i, n - 1 - i)) := by
  ext ⟨a, b⟩
  simp only [diagonalCells, Finset.mem_filter, Finset.mem_product, Finset.mem_range,
    Finset.mem_union, Finset.mem_image, Prod.mk.injEq]
  constructor
  · rintro ⟨⟨ha, hb⟩, h | h⟩
    · exact Or.inl ⟨a, ha, rfl, h⟩
    · exact Or.inr ⟨a, ha, rfl, h.symm⟩
  · rintro (⟨i, hi, h1, h2⟩ | ⟨i, hi, h1, h2⟩)
    · subst h1; subst h2
      exact ⟨⟨hi, hi⟩, Or.inl rfl⟩
    · subst h1; subst h2
      exact ⟨⟨hi, by omega⟩, Or.inr rfl⟩

theorem diagonals_inter (n : Nat) :
    (Finset.range n).image (fun i => (i, i)) ∩ (Finset.range n).image (fun i => (i, n - 1 - i))
      = if n % 2 = 1 then {((n - 1) / 2, (n - 1) / 2)} else ∅ := by
  ext ⟨a, b⟩
  simp only [Finset.mem_inter, Finset.mem_image, Finset.mem_range, Prod.mk.injEq]
  by_cases hodd : n % 2 = 1
  · rw [if_pos hodd]
    simp only [Finset.mem_singleton, Prod.mk.injEq]
    constructor
    · rintro ⟨⟨i, hi, h1, h2⟩, ⟨k, hk, h3, h4⟩⟩
      omega
    · rintro ⟨h1, h2⟩
      exact ⟨⟨a, by omega, rfl, by omega⟩, ⟨a, by omega, rfl, by omega⟩⟩
  · rw [if_neg hodd]
    simp only [Finset.not_mem_empty, iff_false]
    rintro ⟨⟨i, hi, h1, h2⟩, ⟨k, hk, h3, h4⟩⟩
    omega

/-- The two diagonal sums together count every diagonal cell once, and the centre
cell once more when `n` is odd. -/
theorem diagonal_sums_identity (n : Nat) (f : Nat × Nat → Int) :
    (∑ i ∈ Finset.range n, f (i, i)) + (∑ i ∈ Finset.range n, f (i, n - 1 - i))
      = (∑ p ∈ diagonalCells n, f p)
        + (if n % 2 = 1 then f ((n - 1) / 2, (n - 1) / 2) else 0) := by
  have hS : ∑ p ∈ (Finset.range n).image (fun i => (i, i)), f p
      = ∑ i ∈ Finset.range n, f (i, i) :=
    Finset.sum_image (fun x _ y _ h => (Prod.mk.inj h).1)
  have hT : ∑ p ∈ (Finset.range n).image (fun i => (i, n - 1 - i)), f p
      = ∑ i ∈ Finset.range n, f (i, n - 1 - i) :=
    Finset.sum_image (fun x _ y _ h => (Prod.mk.inj h).1)
  have hI : ∑ p ∈ (Finset.range n).image (fun i => (i, i))
        ∩ (Finset.range n).image (fun i => (i, n - 1 - i)), f p
      = if n % 2 = 1 then f ((n - 1) / 2, (n - 1) / 2) else 0 := by
    rw [diagonals_inter]
    by_cases hodd : n % 2 = 1
    · rw [if_pos hodd, if_pos hodd, Finset.sum_singleton]
    · rw [if_neg hodd, if_neg hodd, Finset.sum_empty]
  rw [← hS, ← hT, ← Finset.sum_union_inter, ← diagonalCells_eq_union, hI]

/-- C17: for every `N × N` matrix `M` both diagonal sums are returned, and their
wrapped sum is, for odd `N`, the wrapped sum of every distinct cell lying on
either diagonal plus one more copy of the centre cell `M[(N-1)/2][(N-1)/2]`; for
even `N` it is the wrapped sum of the distinct diagonal cells, none counted twice;
and for `N = 1` both sums equal `M[0][0]` (a 64-bit value). -/
theorem diagonal_sums_double_count (n : Nat) (M : Matrix) (hM : IsSquare M n) :
    ∃ m s, mainDiagonalSum M (n : Int) = some m ∧ secondaryDiagonalSum M (n : Int) = some s ∧
      (n % 2 = 1 → wrap64 (m + s)
        = wrap64 ((∑ p ∈ diagonalCells n, cell M p.1 p.2)
            + cell M ((n - 1) / 2) ((n - 1) / 2))) ∧
      (n % 2 = 0 → wrap64 (m + s) = wrap64 (∑ p ∈ diagonalCells n, cell M p.1 p.2)) ∧
      (n = 1 → LLONG_MIN ≤ cell M 0 0 → cell M 0 0 ≤ LLONG_MAX →
        m = cell M 0 0 ∧ s = cell M 0 0) := by
  have hm := mainDiagonalSum_loop n M hM
  have hs := secondaryDiagonalSum_loop n M hM
  have hsum : wrap64 (diagWrap M (fun i => i) n + diagWrap M (fun i => n - 1 - i) n)
      = wrap64 ((∑ p ∈ diagonalCells n, cell M p.1 p.2)
          + (if n % 2 = 1 then cell M ((n - 1) / 2) ((n - 1) / 2) else 0)) := by
    rw [diagWrap_eq_sum, diagWrap_eq_sum, wrap64_add_left, wrap64_add_right,
      diagonal_sums_identity n (fun p => cell M p.1 p.2)]
  refine ⟨_, _, hm, hs, ?_, ?_, ?_⟩
  · intro hodd
    rw [hsum, if_pos hodd]
  · intro heven
    rw [hsum, if_neg (by omega), add_zero]
  · intro h1 hlo hhi
    subst h1
    have e1 : diagWrap M (fun i => i) 1 = wrap64 (cell M 0 0) := by
      rw [diagWrap_eq_sum, Finset.sum_range_one]
    have e2 : diagWrap M (fun i => 1 - 1 - i) 1 = wrap64 (cell M 0 0) := by
      rw [diagWrap_eq_sum, Finset.sum_range_one]
    rw [e1, e2, wrap64_of_range hlo hhi]
    exact ⟨rfl, rfl⟩

theorem diagonal_sums_double_count_witness :
    ∃ m s, mainDiagonalSum [[1, 2, 3], [4, 5, 6], [7, 8, 9]] ((3 : Nat) : Int) = some m ∧
      secondaryDiagonalSum [[1, 2, 3], [4, 5, 6], [7, 8, 9]] ((3 : Nat) : Int) = some s ∧
      (3 % 2 = 1 → wrap64 (m + s)
        = wrap64 ((∑ p ∈ diagonalCells 3, cell [[1, 2, 3], [4, 5, 6], [7, 8, 9]] p.1 p.2)
            + cell [[1, 2, 3], [4, 5, 6], [7, 8, 9]] ((3 - 1) / 2) ((3 - 1) / 2))) ∧
      (3 % 2 = 0 → wrap64 (m + s)
        = wrap64 (∑ p ∈ diagonalCells 3, cell [[1, 2, 3], [4, 5, 6], [7, 8, 9]] p.1 p.2)) ∧
      (3 = 1 → LLONG_MIN ≤ cell [[1, 2, 3], [4, 5, 6], [7, 8, 9]] 0 0 →
        cell [[1, 2, 3], [4, 5, 6], [7, 8, 9]] 0 0 ≤ LLONG_MAX →
        m = cell [[1, 2, 3], [4, 5, 6], [7, 8, 9]] 0 0 ∧
        s = cell [[1, 2, 3], [4, 5, 6], [7, 8, 9]] 0 0) :=
  diagonal_sums_double_count 3 [[1, 2, 3], [4, 5, 6], [7, 8, 9]] (by decide)

/-! ## The worked example and the integer parsing helper -/

/-- C18: the scenario of the specification. On every machine that can allocate
`2 × 2` matrices, loading `"2\n1 2\n3 4\n5 6\n7 8\n"` from the initial state of
`main` succeeds with `N = 2`, `A = [[1,2],[3,4]]`, `B = [[5,6],[7,8]]`; then `add`
gives `[[6,8],[10,12]]`, `multiply` gives `[[19,22],[43,50]]`, both diagonal sums
of `A` are `5`, `swapRows(A,2,0,5)` returns false with `A` unchanged, and
`updateCell(A,2,0,0,99)` returns true with `A[0][0] = 99` afterwards. -/
theorem concrete_scenario (alloc : Nat → Bool) :
    (alloc 2 = true →
      loadMatrices alloc (some "2\n1 2\n3 4\n5 6\n7 8\n".toList) [] [] 0
        = ⟨LoadStatus.loaded, [[1, 2], [3, 4]], [[5, 6], [7, 8]], 2⟩ ∧
      (loadMatrices alloc (some "2\n1 2\n3 4\n5 6\n7 8\n".toList) [] [] 0).ok = true) ∧
    add [[1, 2], [3, 4]] [[5, 6], [7, 8]] 2 = some [[6, 8], [10, 12]] ∧
    multiply [[1, 2], [3, 4]] [[5, 6], [7, 8]] 2 = some [[19, 22], [43, 50]] ∧
    mainDiagonalSum [[1, 2], [3, 4]] 2 = some 5 ∧
    secondaryDiagonalSum [[1, 2], [3, 4]] 2 = some 5 ∧
    swapRows [[1, 2], [3, 4]] 2 0 5 = some (false, [[1, 2], [3, 4]]) ∧
    updateCell [[1, 2], [3, 4]] 2 0 0 99 = some (true, [[99, 2], [3, 4]]) ∧
    cellAt [[99, 2], [3, 4]] 0 0 = some 99 := by
  refine ⟨fun h2 => ?_, ?_⟩
  · have e2 : alloc (2 : Int).toNat = smallMachine (2 : Int).toNat := by
      show alloc 2 = smallMachine 2
      rw [h2]; rfl
    have hload : loadMatrices alloc (some "2\n1 2\n3 4\n5 6\n7 8\n".toList) [] [] 0
        = ⟨LoadStatus.loaded, [[1, 2], [3, 4]], [[5, 6], [7, 8]], 2⟩ :=
      loadMatrices_of_eval (by decide) (Or.inr e2)
    exact ⟨hload, by rw [hload]; rfl⟩
  · decide

theorem concrete_scenario_witness :
    smallMachine 2 = true ∧
    (loadMatrices smallMachine (some "2\n1 2\n3 4\n5 6\n7 8\n".toList) [] [] 0
      = ⟨LoadStatus.loaded, [[1, 2], [3, 4]], [[5, 6], [7, 8]], 2⟩ ∧
    (loadMatrices smallMachine (some "2\n1 2\n3 4\n5 6\n7 8\n".toList) [] [] 0).ok = true) ∧
    add [[1, 2], [3, 4]] [[5, 6], [7, 8]] 2 = some [[6, 8], [10, 12]] ∧
    multiply [[1, 2], [3, 4]] [[5, 6], [7, 8]] 2 = some [[19, 22], [43, 50]] ∧
    mainDiagonalSum [[1, 2], [3, 4]] 2 = some 5 ∧
    secondaryDiagonalSum [[1, 2], [3, 4]] 2 = some 5 ∧
    swapRows [[1, 2], [3, 4]] 2 0 5 = some (false, [[1, 2], [3, 4]]) ∧
    updateCell [[1, 2], [3, 4]] 2 0 0 99 = some (true, [[99, 2], [3, 4]]) ∧
    cellAt [[99, 2], [3, 4]] 0 0 = some 99 :=
  ⟨by decide, (concrete_scenario smallMachine).1 (by decide), (concrete_scenario smallMachine).2⟩

/-- C19: for every string `s`, `parseInt(s, out)` returns true with `out = v`
exactly when a signed decimal integer `v` is found at the start of the text after
its leading whitespace and `INT_MIN ≤ v ≤ INT_MAX`; it returns false when no digit
is found there, and returns false when the integer lies outside the `int` range,
whether or not it fits in 64 bits. -/
theorem parseInt_spec (s : List Char) (out : Int) :
    (∀ v, parseInt s out = (true, v) ↔ (leadingInt s = some v ∧ INT_MIN ≤ v ∧ v ≤ INT_MAX)) ∧
    (leadingInt s = none → (parseInt s out).1 = false) ∧
    (∀ v, leadingInt s = some v → (v < INT_MIN ∨ INT_MAX < v) → (parseInt s out).1 = false) := by
  have hfst := extractInt_fst LLONG_MIN LLONG_MAX s
  rcases hx : extractInt LLONG_MIN LLONG_MAX s with ⟨e, s'⟩
  rw [hx] at hfst
  simp only at hfst
  cases hl : leadingInt s with
  | none =>
    rw [hl] at hfst
    simp only at hfst
    have hp : parseInt s out = (false, out) := by
      unfold parseInt
      rw [hx, hfst]
      split_ifs <;> rfl
    refine ⟨?_, ?_, ?_⟩
    · intro v
      rw [hp]
      simp
    · intro _
      rw [hp]
    · intro v hv
      exact absurd hv (by simp)
  | some w =>
    rw [hl] at hfst
    simp only at hfst
    have hp : parseInt s out = if INT_MIN ≤ w ∧ w ≤ INT_MAX then (true, w) else (false, out) := by
      unfold parseInt
      rw [hx, hfst]
      unfold outcome
      unfold INT_MIN INT_MAX LLONG_MIN LLONG_MAX
      by_cases h1 : w < -9223372036854775808
      · rw [if_pos h1, if_neg (by omega)]
      · rw [if_neg h1]
        by_cases h2 : w > 9223372036854775807
        · rw [if_pos h2, if_neg (by omega)]
        · rw [if_neg h2]
          simp only
          by_cases h3 : w < -2147483648 ∨ w > 2147483647
          · rw [if_pos h3, if_neg (by omega)]
          · rw [if_neg h3, if_pos (by omega)]
    refine ⟨?_, ?_, ?_⟩
    · intro v
      rw [hp]
      by_cases hr : INT_MIN ≤ w ∧ w ≤ INT_MAX
      · rw [if_pos hr]
        constructor
        · intro h
          have hv : w = v := (Prod.mk.inj h).2
          subst hv
          exact ⟨rfl, hr⟩
        · rintro ⟨h, _⟩
          rw [Option.some.inj h]
      · rw [if_neg hr]
        constructor
        · intro h
          exact absurd (Prod.mk.inj h).1 (by simp)
        · rintro ⟨h, h2⟩
          rw [Option.some.inj h] at hr
          exact absurd h2 hr
    · intro h
      exact absurd h (by simp)
    · intro v hv hout
      have hwv : w = v := Option.some.inj hv
      subst hwv
      rw [hp, if_neg (by omega)]

theorem parseInt_spec_witness :
    (parseInt " 42x".toList 7 = (true, 42) ↔
      (leadingInt " 42x".toList = some 42 ∧ INT_MIN ≤ (42 : Int) ∧ (42 : Int) ≤ INT_MAX)) ∧
    (parseInt "x".toList 7).1 = false ∧
    (parseInt "99999999999999999999".toList 7).1 = false ∧
    (parseInt "2147483648".toList 7).1 = false :=
  ⟨(parseInt_spec " 42x".toList 7).1 42,
   (parseInt_spec "x".toList 7).2.1 (by decide),
   (parseInt_spec "99999999999999999999".toList 7).2.2 99999999999999999999
     (by decide) (by decide),
   (parseInt_spec "2147483648".toList 7).2.2 2147483648 (by decide) (by decide)⟩

/-! ## Session controller: results -/

/-- On an `N × N` matrix `swapRows` always returns, and the matrix stays `N × N`. -/
theorem swapRows_total (n : Nat) (M : Matrix) (r1 r2 : Int) (hM : IsSquare M n) :
    ∃ b M', swapRows M (n : Int) r1 r2 = some (b, M') ∧ IsSquare M' n := by
  unfold swapRows
  by_cases hguard : r1 < 0 ∨ r2 < 0 ∨ r1 ≥ (n : Int) ∨ r2 ≥ (n : Int)
  · rw [if_pos hguard]
    exact ⟨false, M, rfl, hM⟩
  · rw [if_neg hguard]
    by_cases e : r1 = r2
    · rw [if_pos e]
      exact ⟨true, M, rfl, hM⟩
    · rw [if_neg e]
      obtain ⟨a, ha, hla⟩ := hM.row (show r1.toNat < n by omega)
      obtain ⟨b, hb, hlb⟩ := hM.row (show r2.toNat < n by omega)
      exact ⟨true, (M.set r1.toNat b).set r2.toNat a, by simp [ha, hb],
        isSquare_set (isSquare_set hM _ _ hlb) _ _ hla⟩

/-- On an `N × N` matrix `swapCols` always returns, and the matrix stays `N × N`. -/
theorem swapCols_total (n : Nat) (M : Matrix) (c1 c2 : Int) (hM : IsSquare M n) :
    ∃ b M', swapCols M (n : Int) c1 c2 = some (b, M') ∧ IsSquare M' n := by
  by_cases hguard : c1 < 0 ∨ c2 < 0 ∨ c1 ≥ (n : Int) ∨ c2 ≥ (n : Int)
  · refine ⟨false, M, ?_, hM⟩
    unfold swapCols
    rw [if_pos hguard]
  · obtain ⟨M', hM', hsq, _⟩ := swapCols_loop n M c1 c2 hM (by omega) (by omega)
    exact ⟨true, M', hM', hsq⟩

/-- On an `N × N` matrix `updateCell` always returns, and the matrix stays `N × N`. -/
theorem updateCell_total (n : Nat) (M : Matrix) (r c v : Int) (hM : IsSquare M n) :
    ∃ b M', updateCell M (n : Int) r c v = some (b, M') ∧ IsSquare M' n := by
  unfold updateCell
  by_cases hguard : r < 0 ∨ c < 0 ∨ r ≥ (n : Int) ∨ c ≥ (n : Int)
  · rw [if_pos hguard]
    exact ⟨false, M, rfl, hM⟩
  · rw [if_neg hguard, setCell_eq_putCell hM (show r.toNat < n by omega)
      (show c.toNat < n by omega)]
    exact ⟨true, _, rfl, hM.putCell _ _ _⟩

theorem readRow_isSquare (n i : Nat) :
    ∀ (js : List Nat) (M : Matrix) (s : List Char), IsSquare M n →
      IsSquare (readRow i js M s).2.1 n := by
  intro js
  induction js with
  | nil => intro M s hM; exact hM
  | cons j js ih =>
    intro M s hM
    unfold readRow
    rcases hx : extractInt LLONG_MIN LLONG_MAX s with ⟨e, s'⟩
    cases e with
    | value v => exact ih _ _ (hM.putCell i j v)
    | failed v => exact hM.putCell i j v
    | noInput => exact hM

theorem readRows_isSquare (n : Nat) :
    ∀ (is : List Nat) (M : Matrix) (s : List Char), IsSquare M n →
      IsSquare (readRows n is M s).2.1 n := by
  intro is
  induction is with
  | nil => intro M s hM; exact hM
  | cons i is ih =>
    intro M s hM
    have hrow := readRow_isSquare n i (List.range n) M s hM
    unfold readRows
    rcases hx : readRow i (List.range n) M s with ⟨b, M', s'⟩
    rw [hx] at hrow
    cases b with
    | true => exact ih _ _ hrow
    | false => exact hrow

/-- A load that returns true leaves a positive `N` and two `N × N` matrices, for
every file content. -/
theorem loadMatrices_ok_inv (alloc : Nat → Bool) (file : Option (List Char)) (A B : Matrix)
    (N : Int) (h : (loadMatrices alloc file A B N).ok = true) :
    0 < (loadMatrices alloc file A B N).N ∧
    IsSquare (loadMatrices alloc file A B N).A (loadMatrices alloc file A B N).N.toNat ∧
    IsSquare (loadMatrices alloc file A B N).B (loadMatrices alloc file A B N).N.toNat := by
  cases file with
  | none => simp [loadMatrices, LoadResult.ok] at h
  | some src =>
    unfold loadMatrices at h ⊢
    rcases hx : extractInt INT_MIN INT_MAX src with ⟨e, s1⟩
    cases e with
    | noInput => simp [hx, LoadResult.ok] at h
    | failed v => simp [hx, LoadResult.ok] at h
    | value v =>
      simp only [hx] at h ⊢
      by_cases hv : v ≤ 0
      · rw [if_pos hv] at h
        simp [LoadResult.ok] at h
      · rw [if_neg hv] at h ⊢
        by_cases ha : alloc v.toNat = true
        · rw [if_pos ha] at h ⊢
          have hsqA := readRows_isSquare v.toNat (List.range v.toNat)
            (List.replicate v.toNat (List.replicate v.toNat 0)) s1 (isSquare_replicate _)
          rcases hA : readRows v.toNat (List.range v.toNat)
            (List.replicate v.toNat (List.replicate v.toNat 0)) s1 with ⟨bA, A1, s2⟩
          rw [hA] at hsqA
          have hsqB := readRows_isSquare v.toNat (List.range v.toNat)
            (List.replicate v.toNat (List.replicate v.toNat 0)) s2 (isSquare_replicate _)
          rcases hB : readRows v.toNat (List.range v.toNat)
            (List.replicate v.toNat (List.replicate v.toNat 0)) s2 with ⟨bB, B1, s3⟩
          rw [hB] at hsqB
          simp only [hA] at h ⊢
          cases bA with
          | false => simp [LoadResult.ok] at h
          | true =>
            simp only [hB] at h ⊢
            cases bB with
            | false => simp [LoadResult.ok] at h
            | true =>
              show 0 < v ∧ IsSquare A1 v.toNat ∧ IsSquare B1 v.toNat
              exact ⟨by omega, hsqA, hsqB⟩
        · rw [if_neg ha] at h
          simp [LoadResult.ok] at h

/-- Whether a load returns true does not depend on the caller's variables. -/
theorem loadMatrices_ok_of_ok (alloc : Nat → Bool) (file : Option (List Char))
    (A1 B1 A2 B2 : Matrix) (N1 N2 : Int) (h : (loadMatrices alloc file A1 B1 N1).ok = true) :
    (loadMatrices alloc file A2 B2 N2).ok = true := by
  cases file with
  | none => simp [loadMatrices, LoadResult.ok] at h
  | some src => rw [loadMatrices_ok_independent alloc src A1 B1 A2 B2 N1 N2 h]; exact h

/-- One pass of the menu loop whose reload, if any, succeeds: the pass completes
and the session invariant is kept. -/
theorem step_preserves_invariant (alloc : Nat → Bool) (s : Session) (c : Command)
    (h : SessionInv s) (hc : reloadSucceeds alloc c = true) :
    ∃ s', step alloc s c = some s' ∧ SessionInv s' := by
  obtain ⟨A, B, N⟩ := s
  obtain ⟨hN, hA, hB⟩ := h
  simp only at hN hA hB
  lift N to ℕ using (le_of_lt hN) with n
  simp only [Int.toNat_ofNat] at hA hB
  have hinv : SessionInv ⟨A, B, (n : Int)⟩ := ⟨hN, by simpa using hA, by simpa using hB⟩
  have keepA : ∀ A1, IsSquare A1 n → SessionInv ⟨A1, B, (n : Int)⟩ :=
    fun A1 h1 => ⟨hN, by simpa using h1, by simpa using hB⟩
  have keepB : ∀ B1, IsSquare B1 n → SessionInv ⟨A, B1, (n : Int)⟩ :=
    fun B1 h1 => ⟨hN, by simpa using hA, by simpa using h1⟩
  cases c with
  | addAB =>
    obtain ⟨C, hC, _⟩ := add_loop n A B hA hB
    exact ⟨_, by simp only [step, hC], hinv⟩
  | multiplyAB =>
    obtain ⟨C, hC, _⟩ := multiply_loop n A B hA hB
    exact ⟨_, by simp only [step, hC], hinv⟩
  | diagonalSums w =>
    refine ⟨⟨A, B, (n : Int)⟩, ?_, hinv⟩
    simp only [step, mainDiagonalSum_loop n A hA, secondaryDiagonalSum_loop n A hA,
      mainDiagonalSum_loop n B hB, secondaryDiagonalSum_loop n B hB]
    split_ifs <;> rfl
  | swapRowsOf w r1 r2 =>
    obtain ⟨bA, A1, hA1, hsqA⟩ := swapRows_total n A r1 r2 hA
    obtain ⟨bB, B1, hB1, hsqB⟩ := swapRows_total n B r1 r2 hB
    by_cases h1 : w = 1
    · exact ⟨_, by simp only [step, if_pos h1, hA1], keepA A1 hsqA⟩
    · by_cases h2 : w = 2
      · exact ⟨_, by simp only [step, if_neg h1, if_pos h2, hB1], keepB B1 hsqB⟩
      · exact ⟨_, by simp only [step, if_neg h1, if_neg h2], hinv⟩
  | swapColsOf w c1 c2 =>
    obtain ⟨bA, A1, hA1, hsqA⟩ := swapCols_total n A c1 c2 hA
    obtain ⟨bB, B1, hB1, hsqB⟩ := swapCols_total n B c1 c2 hB
    by_cases h1 : w = 1
    · exact ⟨_, by simp only [step, if_pos h1, hA1], keepA A1 hsqA⟩
    · by_cases h2 : w = 2
      · exact ⟨_, by simp only [step, if_neg h1, if_pos h2, hB1], keepB B1 hsqB⟩
      · exact ⟨_, by simp only [step, if_neg h1, if_neg h2], hinv⟩
  | updateCellOf w r c v =>
    obtain ⟨bA, A1, hA1, hsqA⟩ := updateCell_total n A r c v hA
    obtain ⟨bB, B1, hB1, hsqB⟩ := updateCell_total n B r c v hB
    by_cases h1 : w = 1
    · exact ⟨_, by simp only [step, if_pos h1, hA1], keepA A1 hsqA⟩
    · by_cases h2 : w = 2
      · exact ⟨_, by simp only [step, if_neg h1, if_pos h2, hB1], keepB B1 hsqB⟩
      · exact ⟨_, by simp only [step, if_neg h1, if_neg h2], hinv⟩
  | reload file =>
    have hok := loadMatrices_ok_of_ok alloc file [] [] A B 0 (n : Int) hc
    have hst : (loadMatrices alloc file A B (n : Int)).status = LoadStatus.loaded := by
      simpa [LoadResult.ok] using hok
    refine ⟨⟨(loadMatrices alloc file A B (n : Int)).A, (loadMatrices alloc file A B (n : Int)).B,
      (loadMatrices alloc file A B (n : Int)).N⟩, ?_,
      loadMatrices_ok_inv alloc file A B (n : Int) hok⟩
    simp only [step, hst]
    rfl
  | skip => exact ⟨_, rfl, hinv⟩

/-- The session after a successful initial load satisfies the invariant. -/
theorem start_invariant (alloc : Nat → Bool) (file : Option (List Char)) (s : Session)
    (h : start alloc file = some s) : SessionInv s := by
  unfold start at h
  simp only at h
  by_cases hok : (loadMatrices alloc file [] [] 0).ok = true
  · rw [if_pos hok] at h
    have hs := Option.some.inj h
    rw [← hs]
    exact loadMatrices_ok_inv alloc file [] [] 0 hok
  · rw [if_neg hok] at h
    exact absurd h (by simp)

/-- Any sequence of menu selections in which every reload succeeds runs to the
end and keeps the session invariant. -/
theorem run_preserves_invariant (alloc : Nat → Bool) :
    ∀ (cs : List Command) (s : Session), SessionInv s →
      (∀ c ∈ cs, reloadSucceeds alloc c = true) →
      ∃ s', run alloc s cs = some s' ∧ SessionInv s' := by
  intro cs
  induction cs with
  | nil => intro s h _; exact ⟨s, rfl, h⟩
  | cons c cs ih =>
    intro s h hall
    obtain ⟨s1, hs1, hinv1⟩ :=
      step_preserves_invariant alloc s c h (hall c (List.mem_cons_self _ _))
    obtain ⟨s2, hs2, hinv2⟩ := ih s1 hinv1 (fun x hx => hall x (List.mem_cons_of_mem _ hx))
    refine ⟨s2, ?_, hinv2⟩
    unfold run at hs2 ⊢
    rw [List.foldlM_cons, hs1]
    exact hs2

/-- A reload whose load returns, with any result, stores what the load left in
the caller's variables. -/
theorem step_reload_eq (alloc : Nat → Bool) (s : Session) (file : Option (List Char))
    (r : LoadResult) (e : loadMatrices alloc file s.A s.B s.N = r)
    (hr : r.status ≠ LoadStatus.allocFailed) :
    step alloc s (Command.reload file) = some ⟨r.A, r.B, r.N⟩ := by
  subst e
  simp only [step, if_neg hr]

/-- C20 (the code at a failing input): on every machine that can allocate
`1 × 1` matrices, after the successful initial load of `1 5 6` the session is
`A = [[5]]`, `B = [[6]]`, `N = 1`. On every machine, a reload of a file holding
`0` fails and leaves `N = 0` beside the `1 × 1` matrices, a reachable state with
`N > 0` false. A reload of a file holding `2147483648` fails and leaves
`N = INT_MAX` beside the `1 × 1` matrices, so they are not `N × N`; the selection
"swap rows 0 and 5 of A" then passes the bounds check of `swapRows` and reads
row 5 of a one-row matrix. -/
theorem session_invariant_broken_by_failed_reload (alloc : Nat → Bool) :
    (alloc 1 = true → start alloc (some "1 5 6".toList) = some ⟨[[5]], [[6]], 1⟩) ∧
    run alloc ⟨[[5]], [[6]], 1⟩ [Command.reload (some "0".toList)]
      = some ⟨[[5]], [[6]], 0⟩ ∧
    ¬ SessionInv ⟨[[5]], [[6]], 0⟩ ∧
    run alloc ⟨[[5]], [[6]], 1⟩ [Command.reload (some "2147483648".toList)]
      = some ⟨[[5]], [[6]], INT_MAX⟩ ∧
    ¬ SessionInv ⟨[[5]], [[6]], INT_MAX⟩ ∧
    run alloc ⟨[[5]], [[6]], 1⟩
      [Command.reload (some "2147483648".toList), Command.swapRowsOf 1 0 5] = none := by
  have hzero : loadMatrices alloc (some "0".toList) [[5]] [[6]] 1
      = ⟨LoadStatus.invalidN, [[5]], [[6]], 0⟩ :=
    loadMatrices_of_eval (by decide) (Or.inl (Or.inr rfl))
  have hbig : loadMatrices alloc (some "2147483648".toList) [[5]] [[6]] 1
      = ⟨LoadStatus.invalidN, [[5]], [[6]], INT_MAX⟩ :=
    loadMatrices_of_eval (by decide) (Or.inl (Or.inr rfl))
  have szero := step_reload_eq alloc ⟨[[5]], [[6]], 1⟩ (some "0".toList) _ hzero (by decide)
  have sbig := step_reload_eq alloc ⟨[[5]], [[6]], 1⟩ (some "2147483648".toList) _ hbig
    (by decide)
  refine ⟨fun h1 => ?_, ?_, by decide, ?_, by decide, ?_⟩
  · have e1 : alloc (1 : Int).toNat = smallMachine (1 : Int).toNat := by
      show alloc 1 = smallMachine 1
      rw [h1]; rfl
    have hload : loadMatrices alloc (some "1 5 6".toList) [] [] 0
        = ⟨LoadStatus.loaded, [[5]], [[6]], 1⟩ :=
      loadMatrices_of_eval (by decide) (Or.inr e1)
    unfold start
    rw [hload]
    rfl
  · unfold run
    rw [List.foldlM_cons, szero]
    rfl
  · unfold run
    rw [List.foldlM_cons, sbig]
    rfl
  · unfold run
    rw [List.foldlM_cons, sbig]
    show List.foldlM (step alloc) ⟨[[5]], [[6]], INT_MAX⟩ [Command.swapRowsOf 1 0 5] = none
    rw [List.foldlM_cons]
    rfl

theorem session_invariant_broken_by_failed_reload_witness :
    smallMachine 1 = true ∧
    start smallMachine (some "1 5 6".toList) = some ⟨[[5]], [[6]], 1⟩ ∧
    run smallMachine ⟨[[5]], [[6]], 1⟩ [Command.reload (some "0".toList)]
      = some ⟨[[5]], [[6]], 0⟩ ∧
    ¬ SessionInv ⟨[[5]], [[6]], 0⟩ ∧
    run smallMachine ⟨[[5]], [[6]], 1⟩ [Command.reload (some "2147483648".toList)]
      = some ⟨[[5]], [[6]], INT_MAX⟩ ∧
    ¬ SessionInv ⟨[[5]], [[6]], INT_MAX⟩ ∧
    run smallMachine ⟨[[5]], [[6]], 1⟩
      [Command.reload (some "2147483648".toList), Command.swapRowsOf 1 0 5] = none :=
  ⟨by decide, (session_invariant_broken_by_failed_reload smallMachine).1 (by decide),
    (session_invariant_broken_by_failed_reload smallMachine).2⟩

/-! ## Column swaps and products -/

/-- After `swapCols(M, N, c1, c2)` a second swap of the same two columns, named
in either order, returns true and gives back `M`. -/
theorem swapCols_undo (n : Nat) (M : Matrix) (c1 c2 d1 d2 : Int) (hM : IsSquare M n)
    (h1 : 0 ≤ c1 ∧ c1 < (n : Int)) (h2 : 0 ≤ c2 ∧ c2 < (n : Int))
    (hd : (d1 = c1 ∧ d2 = c2) ∨ (d1 = c2 ∧ d2 = c1)) :
    ∃ M1, swapCols M (n : Int) c1 c2 = some (true, M1) ∧
      swapCols M1 (n : Int) d1 d2 = some (true, M) := by
  obtain ⟨M1, hM1, hsq1, hcell1, hsame1⟩ := swapCols_loop n M c1 c2 hM h1 h2
  have hd1 : 0 ≤ d1 ∧ d1 < (n : Int) := by omega
  have hd2 : 0 ≤ d2 ∧ d2 < (n : Int) := by omega
  obtain ⟨M2, hM2, hsq2, hcell2, hsame2⟩ := swapCols_loop n M1 d1 d2 hsq1 hd1 hd2
  refine ⟨M1, hM1, ?_⟩
  rw [hM2]
  congr 2
  by_cases e : c1 = c2
  · have hdd : d1 = d2 := by omega
    rw [hsame2 hdd, hsame1 e]
  · apply matrix_ext hsq2 hM
    intro i j hi _
    obtain ⟨a1, a2, a3⟩ := hcell1 i hi
    obtain ⟨b1, b2, b3⟩ := hcell2 i hi
    have hne : c1.toNat ≠ c2.toNat := by omega
    rcases hd with ⟨e1, e2⟩ | ⟨e1, e2⟩
    · subst e1; subst e2
      by_cases j1 : j = d1.toNat
      · rw [j1, b1, a2]
      · by_cases j2 : j = d2.toNat
        · rw [j2, b2, a1]
        · rw [b3 j j1 j2, a3 j j1 j2]
    · subst e1; subst e2
      by_cases j1 : j = d1.toNat
      · rw [j1, b1, a1]
      · by_cases j2 : j = d2.toNat
        · rw [j2, b2, a2]
        · rw [b3 j j1 j2, a3 j j2 j1]

/-- C22: for every `N × N` matrix `M` and all `c1, c2` in `[0, N)`,
`swapCols(M, N, c1, c2)` followed by `swapCols(·, N, c2, c1)`, or by the same call
again, returns true both times and restores `M` exactly. -/
theorem swapCols_twice (n : Nat) (M : Matrix) (c1 c2 : Int) (hM : IsSquare M n)
    (h1 : 0 ≤ c1 ∧ c1 < (n : Int)) (h2 : 0 ≤ c2 ∧ c2 < (n : Int)) :
    ∃ M1, swapCols M (n : Int) c1 c2 = some (true, M1) ∧
      swapCols M1 (n : Int) c2 c1 = some (true, M) ∧
      swapCols M1 (n : Int) c1 c2 = some (true, M) := by
  obtain ⟨M1, hfirst, hback⟩ := swapCols_undo n M c1 c2 c2 c1 hM h1 h2 (Or.inr ⟨rfl, rfl⟩)
  obtain ⟨M1', hfirst', hagain⟩ := swapCols_undo n M c1 c2 c1 c2 hM h1 h2 (Or.inl ⟨rfl, rfl⟩)
  have hM1 : M1' = M1 := by
    rw [hfirst] at hfirst'
    exact ((Prod.mk.inj (Option.some.inj hfirst')).2).symm
  rw [hM1] at hagain
  exact ⟨M1, hfirst, hback, hagain⟩

theorem swapCols_twice_witness :
    ∃ M1, swapCols [[1, 2], [3, 4]] ((2 : Nat) : Int) 0 1 = some (true, M1) ∧
      swapCols M1 ((2 : Nat) : Int) 1 0 = some (true, [[1, 2], [3, 4]]) ∧
      swapCols M1 ((2 : Nat) : Int) 0 1 = some (true, [[1, 2], [3, 4]]) :=
  swapCols_twice 2 [[1, 2], [3, 4]] 0 1 (by decide) (by decide) (by decide)

/-- The exact triple sum behind both bracketings of a product of three matrices. -/
theorem triple_sum_assoc (n : Nat) (a : Nat → Int) (b : Nat → Nat → Int) (c : Nat → Int) :
    ∑ k ∈ Finset.range n, (∑ l ∈ Finset.range n, a l * b l k) * c k
      = ∑ l ∈ Finset.range n, a l * ∑ k ∈ Finset.range n, b l k * c k := by
  simp only [Finset.sum_mul, Finset.mul_sum]
  rw [Finset.sum_comm]
  apply Finset.sum_congr rfl
  intro l _
  apply Finset.sum_congr rfl
  intro k _
  ring

/-- C23: for every `N ≥ 0` and all `N × N` matrices `A`, `B`, `C`, all four calls
return and `multiply(multiply(A, B, N), C, N)` is the same matrix as
`multiply(A, multiply(B, C, N), N)` under 64-bit wraparound arithmetic, also when
intermediate values overflow. -/
theorem multiply_assoc (n : Nat) (A B C : Matrix) (hA : IsSquare A n) (hB : IsSquare B n)
    (hC : IsSquare C n) :
    ∃ AB BC R, multiply A B (n : Int) = some AB ∧ multiply B C (n : Int) = some BC ∧
      multiply AB C (n : Int) = some R ∧ multiply A BC (n : Int) = some R ∧ IsSquare R n := by
  obtain ⟨AB, hAB, hsqAB, hcAB⟩ := multiply_loop n A B hA hB
  obtain ⟨BC, hBC, hsqBC, hcBC⟩ := multiply_loop n B C hB hC
  obtain ⟨L, hL, hsqL, hcL⟩ := multiply_loop n AB C hsqAB hC
  obtain ⟨R, hR, hsqR, hcR⟩ := multiply_loop n A BC hA hsqBC
  have hLR : L = R := by
    apply matrix_ext hsqL hsqR
    intro i j hi hj
    have hleft : wrap64 (∑ k ∈ Finset.range n, cell AB i k * cell C k j)
        = wrap64 (∑ k ∈ Finset.range n,
            (∑ l ∈ Finset.range n, cell A i l * cell B l k) * cell C k j) := by
      apply wrap64_sum_congr
      intro k hk
      rw [hcAB i k hi hk, dotWrap_eq_sum, ← sub_mul]
      exact Dvd.dvd.mul_right (wrap64_sub_dvd _) _
    have hright : wrap64 (∑ l ∈ Finset.range n, cell A i l * cell BC l j)
        = wrap64 (∑ l ∈ Finset.range n,
            cell A i l * ∑ k ∈ Finset.range n, cell B l k * cell C k j) := by
      apply wrap64_sum_congr
      intro l hl
      rw [hcBC l j hl hj, dotWrap_eq_sum, ← mul_sub]
      exact Dvd.dvd.mul_left (wrap64_sub_dvd _) _
    rw [hcL i j hi hj, hcR i j hi hj, dotWrap_eq_sum, dotWrap_eq_sum, hleft, hright,
      triple_sum_assoc n (fun l => cell A i l) (fun l k => cell B l k) (fun k => cell C k j)]
  exact ⟨AB, BC, R, hAB, hBC, hLR ▸ hL, hR, hsqR⟩

theorem multiply_assoc_witness :
    ∃ AB BC R, multiply [[1, 2], [3, 4]] [[5, 6], [7, 8]] ((2 : Nat) : Int) = some AB ∧
      multiply [[5, 6], [7, 8]] [[9223372036854775807, 1], [2, 3]] ((2 : Nat) : Int) = some BC ∧
      multiply AB [[9223372036854775807, 1], [2, 3]] ((2 : Nat) : Int) = some R ∧
      multiply [[1, 2], [3, 4]] BC ((2 : Nat) : Int) = some R ∧ IsSquare R 2 :=
  multiply_assoc 2 [[1, 2], [3, 4]] [[5, 6], [7, 8]] [[9223372036854775807, 1], [2, 3]]
    (by decide) (by decide) (by decide)

/-! ## Index safety -/

/-- On an `N × N` matrix the checked read succeeds exactly at the indices inside
`[0, N) × [0, N)`. -/
theorem cellAt_isSome_iff {M : Matrix} {n : Nat} (hM : IsSquare M n) (i j : Nat) :
    (cellAt M i j).isSome = true ↔ i < n ∧ j < n := by
  constructor
  · intro h
    unfold cellAt at h
    cases hrow : M[i]? with
    | none => rw [hrow] at h; simp at h
    | some row =>
      rw [hrow] at h
      simp only at h
      obtain ⟨hi, hget⟩ := List.getElem?_eq_some_iff.mp hrow
      have hlen : row.length = n := hM.2 row (hget ▸ List.getElem_mem hi)
      have hj : j < row.length := by
        by_contra hnot
        rw [List.getElem?_eq_none (by omega)] at h
        simp at h
      exact ⟨by rw [← hM.1]; exact hi, by omega⟩
  · rintro ⟨hi, hj⟩
    rw [cellAt_eq_cell hM hi hj]
    rfl

/-- On an `N × N` matrix the checked write succeeds exactly at the indices inside
`[0, N) × [0, N)`. -/
theorem setCell_isSome_iff {M : Matrix} {n : Nat} (hM : IsSquare M n) (i j : Nat) (v : Int) :
    (setCell M i j v).isSome = true ↔ i < n ∧ j < n := by
  constructor
  · intro h
    unfold setCell at h
    cases hrow : M[i]? with
    | none => rw [hrow] at h; simp at h
    | some row =>
      rw [hrow] at h
      simp only at h
      obtain ⟨hi, hget⟩ := List.getElem?_eq_some_iff.mp hrow
      have hlen : row.length = n := hM.2 row (hget ▸ List.getElem_mem hi)
      have hj : j < row.length := by
        by_contra hnot
        rw [if_neg hnot] at h
        simp at h
      exact ⟨by rw [← hM.1]; exact hi, by omega⟩
  · rintro ⟨hi, hj⟩
    rw [setCell_eq_putCell hM hi hj]
    rfl

/-- C21: index safety. In the embedding every cell or row access is checked and an
access outside the matrix makes the operation return `none`; on an `N × N` matrix
the checked accesses succeed exactly for indices in `[0, N)` in both coordinates.
For every `N ≥ 0`, all `N × N` matrices and arbitrary integer index arguments,
`add`, `multiply`, `mainDiagonalSum`, `secondaryDiagonalSum`, `swapRows`,
`swapCols` and `updateCell` return a result: the out-of-range branch is never
taken. The column index `N - 1 - i` of the secondary diagonal lies in `[0, N)` for
every `i` in `[0, N)`. -/
theorem index_safety (n : Nat) (A B : Matrix) (hA : IsSquare A n) (hB : IsSquare B n) :
    (∀ i j, (cellAt A i j).isSome = true ↔ i < n ∧ j < n) ∧
    (∀ i j v, (setCell A i j v).isSome = true ↔ i < n ∧ j < n) ∧
    (add A B (n : Int)).isSome = true ∧
    (multiply A B (n : Int)).isSome = true ∧
    (mainDiagonalSum A (n : Int)).isSome = true ∧
    (secondaryDiagonalSum A (n : Int)).isSome = true ∧
    (∀ i : Nat, i < n → 0 ≤ (n : Int) - 1 - (i : Int) ∧ (n : Int) - 1 - (i : Int) < (n : Int)) ∧
    (∀ r1 r2 : Int, (swapRows A (n : Int) r1 r2).isSome = true) ∧
    (∀ c1 c2 : Int, (swapCols A (n : Int) c1 c2).isSome = true) ∧
    (∀ r c v : Int, (updateCell A (n : Int) r c v).isSome = true) := by
  refine ⟨cellAt_isSome_iff hA, setCell_isSome_iff hA, ?_, ?_, ?_, ?_, ?_, ?_, ?_, ?_⟩
  · obtain ⟨C, hC, _⟩ := add_loop n A B hA hB
    rw [hC]; rfl
  · obtain ⟨C, hC, _⟩ := multiply_loop n A B hA hB
    rw [hC]; rfl
  · rw [mainDiagonalSum_loop n A hA]; rfl
  · rw [secondaryDiagonalSum_loop n A hA]; rfl
  · intro i hi
    omega
  · intro r1 r2
    obtain ⟨b, M', h, _⟩ := swapRows_total n A r1 r2 hA
    rw [h]; rfl
  · intro c1 c2
    obtain ⟨b, M', h, _⟩ := swapCols_total n A c1 c2 hA
    rw [h]; rfl
  · intro r c v
    obtain ⟨b, M', h, _⟩ := updateCell_total n A r c v hA
    rw [h]; rfl

theorem index_safety_witness :
    (∀ i j, (cellAt [[1, 2], [3, 4]] i j).isSome = true ↔ i < 2 ∧ j < 2) ∧
    (∀ i j v, (setCell [[1, 2], [3, 4]] i j v).isSome = true ↔ i < 2 ∧ j < 2) ∧
    (add [[1, 2], [3, 4]] [[5, 6], [7, 8]] ((2 : Nat) : Int)).isSome = true ∧
    (multiply [[1, 2], [3, 4]] [[5, 6], [7, 8]] ((2 : Nat) : Int)).isSome = true ∧
    (mainDiagonalSum [[1, 2], [3, 4]] ((2 : Nat) : Int)).isSome = true ∧
    (secondaryDiagonalSum [[1, 2], [3, 4]] ((2 : Nat) : Int)).isSome = true ∧
    (∀ i : Nat, i < 2 →
      0 ≤ ((2 : Nat) : Int) - 1 - (i : Int) ∧ ((2 : Nat) : Int) - 1 - (i : Int) < ((2 : Nat) : Int)) ∧
    (∀ r1 r2 : Int, (swapRows [[1, 2], [3, 4]] ((2 : Nat) : Int) r1 r2).isSome = true) ∧
    (∀ c1 c2 : Int, (swapCols [[1, 2], [3, 4]] ((2 : Nat) : Int) c1 c2).isSome = true) ∧
    (∀ r c v : Int, (updateCell [[1, 2], [3, 4]] ((2 : Nat) : Int) r c v).isSome = true) :=
  index_safety 2 [[1, 2], [3, 4]] [[5, 6], [7, 8]] (by decide) (by decide)

end MatrixLab
